import Mathlib

/-!
Shallow embedding of the Lin–Kernighan TSP heuristic from
`src/LinKernighanHeuristic.cpp` (classes `AlternatingWalk`, `CandidateEdges`,
`LinKernighanHeuristic`).

The external collaborators `Tour`, `TsplibProblem` and `alphaDistances`
(declared in headers that are not part of the sources) are modelled from the
specification: a tour is a cyclic vertex order (a Hamiltonian cycle over
`[0, N)`), the distance oracle is a symmetric nonnegative integer function,
`exchangeGain` is the alternating sum of edge lengths of a walk, and
`isTourAfterExchange`/`exchange` act on the symmetric difference of the
tour's edge set with the walk's edge set.

Machine integers are modelled as `ℕ` (`distance_t`, `dimension_t`,
`vertex_t`) and `ℤ` (`signed_distance_t`).  Randomness
(`std::random_device`) is modelled by an explicit stream of drawn values.
The two unbounded `while` loops of `improveTour` are modelled by a step
function driven by fuel; termination is proved separately.
-/

/-- Unordered edge between two vertices, normalised as `(min, max)`. -/
def nedge (a b : ℕ) : ℕ × ℕ := (min a b, max a b)

theorem nedge_comm (a b : ℕ) : nedge a b = nedge b a := by
  simp [nedge, Nat.min_comm, Nat.max_comm]

theorem nedge_eq_iff {a b c d : ℕ} :
    nedge a b = nedge c d ↔ (a = c ∧ b = d) ∨ (a = d ∧ b = c) := by
  simp only [nedge, Prod.mk.injEq]
  omega

/-- A vertex lies on a normalised edge. -/
theorem mem_nedge_iff {a b v : ℕ} :
    (nedge a b).1 = v ∨ (nedge a b).2 = v ↔ v = a ∨ v = b := by
  simp only [nedge]
  omega

/-- The TSPLIB problem contract: a dimension and a symmetric nonnegative
integer distance oracle.  Symmetry is obtained structurally by evaluating
the underlying table on the normalised edge. -/
structure TsplibProblem where
  dimension : ℕ
  d : ℕ → ℕ → ℕ

/-- Distance of a (normalised) edge. -/
def TsplibProblem.dE (P : TsplibProblem) (e : ℕ × ℕ) : ℕ := P.d e.1 e.2

/-- `dist(u, v)`, symmetric by construction. -/
def TsplibProblem.dist (P : TsplibProblem) (u v : ℕ) : ℕ := P.dE (nedge u v)

theorem distApp_comm (P : TsplibProblem) (u v : ℕ) : P.dist u v = P.dist v u := by
  simp [TsplibProblem.dist, nedge_comm]

/-! ### AlternatingWalk

A walk is a `List ℕ` of vertices.  `walkEdges` lists its consecutive
normalised edges in order; even-indexed edges are to be removed from the
tour, odd-indexed edges are to be added. -/

/-- Consecutive (normalised) edges of a walk, in walk order. -/
def walkEdges : List ℕ → List (ℕ × ℕ)
  | [] => []
  | [_] => []
  | a :: b :: r => nedge a b :: walkEdges (b :: r)

theorem walkEdges_append_last {w : List ℕ} (hw : w ≠ []) (x : ℕ) :
    walkEdges (w ++ [x]) = walkEdges w ++ [nedge (w.getLastD 0) x] := by
  induction w with
  | nil => simp at hw
  | cons a r ih =>
    cases r with
    | nil => simp [walkEdges]
    | cons b s =>
      have h2 := ih (by simp)
      simp only [List.cons_append] at h2 ⊢
      rw [show walkEdges (a :: b :: (s ++ [x])) = nedge a b :: walkEdges (b :: (s ++ [x])) from rfl,
        show (b :: s) ++ [x] = b :: (s ++ [x]) from rfl] at *
      rw [h2]
      simp [walkEdges, List.getLastD_cons]

theorem walkEdges_length {w : List ℕ} (hw : w ≠ []) :
    (walkEdges w).length = w.length - 1 := by
  induction w with
  | nil => simp at hw
  | cons a r ih =>
    cases r with
    | nil => simp [walkEdges]
    | cons b s => simpa [walkEdges] using ih (by simp)

theorem walkEdges_take {w : List ℕ} {m : ℕ} :
    walkEdges (w.take m) = (walkEdges w).take (m - 1) := by
  induction w generalizing m with
  | nil => simp [walkEdges]
  | cons a r ih =>
    cases r with
    | nil => cases m with
      | zero => simp [walkEdges]
      | succ m => cases m <;> simp [walkEdges]
    | cons b s =>
      cases m with
      | zero => simp [walkEdges]
      | succ m =>
        cases m with
        | zero => simp [walkEdges]
        | succ m =>
          simp only [walkEdges, List.take_succ_cons]
          rw [show b :: List.take m s = List.take (m + 1) (b :: s) from rfl, ih]
          simp [walkEdges]

/-- `AlternatingWalk::close`: append the first element (the C++ `at(0)`
throws on an empty walk; the empty case is a dead branch here). -/
def closeWalk (w : List ℕ) : List ℕ :=
  match w with
  | [] => []
  | a :: _ => (a :: w.tail) ++ [a]

theorem closeWalk_cons (a : ℕ) (r : List ℕ) :
    closeWalk (a :: r) = (a :: r) ++ [a] := by
  simp [closeWalk]

/-- `AlternatingWalk::appendAndClose`: append `vertex`, then the first
element. -/
def appendAndClose (w : List ℕ) (v : ℕ) : List ℕ :=
  match w with
  | [] => []
  | a :: _ => (a :: w.tail) ++ [v, a]

/-- `AlternatingWalk::containsEdge`, as the structural scan of consecutive
pairs that the C++ index loop performs on a nonempty walk. -/
def containsEdgeB (w : List ℕ) (u v : ℕ) : Bool :=
  match w with
  | [] => false
  | [_] => false
  | a :: b :: r =>
    ((a = u && b = v) || (a = v && b = u)) || containsEdgeB (b :: r) u v

theorem containsEdgeB_iff_mem {w : List ℕ} {u v : ℕ} :
    containsEdgeB w u v = true ↔ nedge u v ∈ walkEdges w := by
  induction w with
  | nil => simp [containsEdgeB, walkEdges]
  | cons a r ih =>
    cases r with
    | nil => simp [containsEdgeB, walkEdges]
    | cons b s =>
      simp only [containsEdgeB, walkEdges, List.mem_cons, Bool.or_eq_true,
        Bool.and_eq_true, decide_eq_true_eq]
      rw [ih]
      constructor
      · rintro (⟨⟨rfl, rfl⟩ | ⟨rfl, rfl⟩⟩ | h)
        · exact Or.inl rfl
        · exact Or.inl (nedge_comm _ _)
        · exact Or.inr h
      · rintro (h | h)
        · rcases nedge_eq_iff.mp h.symm with ⟨rfl, rfl⟩ | ⟨rfl, rfl⟩
          · exact Or.inl (Or.inl ⟨rfl, rfl⟩)
          · exact Or.inl (Or.inr ⟨rfl, rfl⟩)
        · exact Or.inr h

/-! ### Alternating sums and the parity split of an edge list -/

/-- Split a list by index parity: `deintP true l` keeps the even-indexed
elements, `deintP false l` the odd-indexed ones. -/
def deintP (b : Bool) : List (ℕ × ℕ) → List (ℕ × ℕ)
  | [] => []
  | e :: r => if b then e :: deintP false r else deintP true r

theorem deintP_true_cons (e : ℕ × ℕ) (r : List (ℕ × ℕ)) :
    deintP true (e :: r) = e :: deintP false r := by simp [deintP]

theorem deintP_false_cons (e : ℕ × ℕ) (r : List (ℕ × ℕ)) :
    deintP false (e :: r) = deintP true r := by simp [deintP]

theorem mem_of_mem_deintP {b : Bool} {l : List (ℕ × ℕ)} {e : ℕ × ℕ}
    (h : e ∈ deintP b l) : e ∈ l := by
  induction l generalizing b with
  | nil => simp [deintP] at h
  | cons a r ih =>
    cases b with
    | true =>
      rw [deintP_true_cons] at h
      rcases List.mem_cons.mp h with h | h
      · simp [h]
      · exact List.mem_cons_of_mem _ (ih h)
    | false =>
      rw [deintP_false_cons] at h
      exact List.mem_cons_of_mem _ (ih h)

theorem deintP_append_last (l : List (ℕ × ℕ)) (e : ℕ × ℕ) :
    (deintP true (l ++ [e]) =
        deintP true l ++ (if l.length % 2 = 0 then [e] else [])) ∧
      (deintP false (l ++ [e]) =
        deintP false l ++ (if l.length % 2 = 0 then [] else [e])) := by
  induction l with
  | nil => simp [deintP]
  | cons a r ih =>
    simp only [List.cons_append, deintP_true_cons, deintP_false_cons,
      List.length_cons, ih.1, ih.2]
    constructor <;> (split_ifs with h1 h2 <;> first | omega | simp)

theorem deintP_nodup {l : List (ℕ × ℕ)} (h : l.Nodup) (b : Bool) :
    (deintP b l).Nodup := by
  induction l generalizing b with
  | nil => simp [deintP]
  | cons a r ih =>
    rcases List.nodup_cons.mp h with ⟨ha, hr⟩
    cases b with
    | true =>
      rw [deintP_true_cons, List.nodup_cons]
      exact ⟨fun hmem => ha (mem_of_mem_deintP hmem), ih hr false⟩
    | false =>
      rw [deintP_false_cons]
      exact ih hr true

theorem deintP_disjoint {l : List (ℕ × ℕ)} (h : l.Nodup) :
    ∀ e ∈ deintP true l, e ∉ deintP false l := by
  suffices hs : ∀ l : List (ℕ × ℕ), l.Nodup →
      (∀ e ∈ deintP true l, e ∉ deintP false l) ∧
        (∀ e ∈ deintP false l, e ∉ deintP true l) by
    exact (hs l h).1
  intro l hl
  induction l with
  | nil => simp [deintP]
  | cons a r ih =>
    rcases List.nodup_cons.mp hl with ⟨ha, hr⟩
    rcases ih hr with ⟨ih1, ih2⟩
    rw [deintP_true_cons, deintP_false_cons]
    constructor
    · intro e he
      rcases List.mem_cons.mp he with rfl | he
      · exact fun hmem => ha (mem_of_mem_deintP hmem)
      · exact ih2 e he
    · intro e he hmem
      rcases List.mem_cons.mp hmem with rfl | hmem
      · exact ha (mem_of_mem_deintP he)
      · exact ih1 e he hmem

theorem deintP_length (l : List (ℕ × ℕ)) :
    (deintP true l).length = (l.length + 1) / 2 ∧
      (deintP false l).length = l.length / 2 := by
  induction l with
  | nil => simp [deintP]
  | cons a r ih =>
    rw [deintP_true_cons, deintP_false_cons]
    simp only [List.length_cons]
    omega

/-- `TsplibProblem::exchangeGain`, modelled from the spec: the sum of the
distances of even-indexed (removed) edges minus the sum over odd-indexed
(added) edges, as a signed quantity.  `b` is the parity of the next edge. -/
def gainFrom (P : TsplibProblem) (b : Bool) : List (ℕ × ℕ) → ℤ
  | [] => 0
  | e :: r => (if b then (P.dE e : ℤ) else -(P.dE e : ℤ)) + gainFrom P (!b) r

/-- `exchangeGain` of a walk (open or closed). -/
def exchangeGain (P : TsplibProblem) (w : List ℕ) : ℤ :=
  gainFrom P true (walkEdges w)

theorem gainFrom_eq_split (P : TsplibProblem) (l : List (ℕ × ℕ)) :
    gainFrom P true l =
      ((deintP true l).map P.dE).sum - ((deintP false l).map P.dE).sum ∧
    gainFrom P false l =
      ((deintP false l).map P.dE).sum - ((deintP true l).map P.dE).sum := by
  induction l with
  | nil => simp [gainFrom, deintP]
  | cons a r ih =>
    rw [deintP_true_cons, deintP_false_cons]
    constructor
    · show (P.dE a : ℤ) + gainFrom P false r = _
      rw [ih.2]
      simp only [List.map_cons, List.sum_cons]
      push_cast
      ring
    · show -(P.dE a : ℤ) + gainFrom P true r = _
      rw [ih.1]
      simp only [List.map_cons, List.sum_cons]
      push_cast
      ring

/-! ### The Tour contract (modelled from the spec)

The doubly-linked-list `Tour` class is external to the sources; per the
spec it is a Hamiltonian cycle over `[0, N)` supporting neighbour,
predecessor, successor, `containsEdge`, `isTourAfterExchange` and
`exchange`.  We model a tour as the cyclic order of its vertices. -/

/-- A Hamiltonian cycle over `[0, N)`: a duplicate-free order of all `N`
vertices. -/
def ValidTour (N : ℕ) (T : List ℕ) : Prop :=
  T.Nodup ∧ T.length = N ∧ ∀ v ∈ T, v < N

instance (N : ℕ) (T : List ℕ) : Decidable (ValidTour N T) := by
  unfold ValidTour
  infer_instance

/-- The edges of the cycle, one per position (position `j` joins the
`j`-th vertex with its cyclic follower). -/
def edgeList (T : List ℕ) : List (ℕ × ℕ) :=
  (List.range T.length).map
    (fun j => nedge (T.getD j 0) (T.getD ((j + 1) % T.length) 0))

def edgeFinset (T : List ℕ) : Finset (ℕ × ℕ) := (edgeList T).toFinset

/-- `TsplibProblem::length` of a tour. -/
def tourLength (P : TsplibProblem) (T : List ℕ) : ℕ :=
  ((edgeList T).map P.dE).sum

/-- `Tour::predecessor`. -/
def predT (T : List ℕ) (v : ℕ) : ℕ :=
  T.getD ((T.indexOf v + T.length - 1) % T.length) 0

/-- `Tour::successor`. -/
def succT (T : List ℕ) (v : ℕ) : ℕ :=
  T.getD ((T.indexOf v + 1) % T.length) 0

/-- `Tour::getNeighbors`: the two cyclic neighbours of a vertex. -/
def neighborsT (T : List ℕ) (v : ℕ) : List ℕ := [predT T v, succT T v]

/-- `Tour::containsEdge`. -/
def tourContainsEdgeB (T : List ℕ) (u v : ℕ) : Bool :=
  decide (nedge u v ∈ edgeList T)

theorem edgeList_length (T : List ℕ) : (edgeList T).length = T.length := by
  simp [edgeList]

theorem pred_idx_eq {n iv : ℕ} (h : iv < n) :
    (iv + n - 1) % n = if iv = 0 then n - 1 else iv - 1 := by
  rcases Nat.eq_zero_or_pos iv with rfl | hpos
  · rw [if_pos rfl, show 0 + n - 1 = n - 1 by omega]
    have hlt : n - 1 < n := by omega
    exact Nat.mod_eq_of_lt hlt
  · rw [if_neg (by omega), show iv + n - 1 = (iv - 1) + n by omega,
      Nat.add_mod_right]
    have hlt : iv - 1 < n := by omega
    exact Nat.mod_eq_of_lt hlt

theorem succ_idx_eq {n iv : ℕ} (h : iv < n) :
    (iv + 1) % n = if iv + 1 = n then 0 else iv + 1 := by
  rcases Nat.lt_or_ge (iv + 1) n with hlt | hge
  · rw [if_neg (by omega)]
    exact Nat.mod_eq_of_lt hlt
  · have heq : iv + 1 = n := by omega
    rw [if_pos heq, heq, Nat.mod_self]

theorem cyc_idx_iff {n iv j : ℕ} (hiv : iv < n) (hj : j < n) :
    (j + 1) % n = iv ↔ j = (iv + n - 1) % n := by
  rw [succ_idx_eq hj, pred_idx_eq hiv]
  split_ifs <;> omega

theorem getD_indexOf {T : List ℕ} {v : ℕ} (hv : v ∈ T) :
    T.getD (T.indexOf v) 0 = v := by
  rw [List.getD_eq_getElem T 0 (List.indexOf_lt_length.mpr hv)]
  exact List.getElem_indexOf _

theorem mem_edgeList_iff {T : List ℕ} {u x : ℕ} :
    nedge u x ∈ edgeList T ↔
      ∃ j, j < T.length ∧
        nedge (T.getD j 0) (T.getD ((j + 1) % T.length) 0) = nedge u x := by
  simp [edgeList, List.mem_map, List.mem_range]

/-- On a valid tour, `(v, x)` is a tour edge iff `x` is the predecessor or
the successor of `v` (the equivalence the source comments rely on at the
odd-step filter). -/
theorem edge_mem_iff_pred_or_succ {T : List ℕ} {v : ℕ}
    (hnd : T.Nodup) (hv : v ∈ T) (x : ℕ) :
    nedge v x ∈ edgeList T ↔ x = predT T v ∨ x = succT T v := by
  have hn : 0 < T.length := List.length_pos.mpr (List.ne_nil_of_mem hv)
  have hiv : T.indexOf v < T.length := List.indexOf_lt_length.mpr hv
  constructor
  · rw [mem_edgeList_iff]
    rintro ⟨j, hj, hje⟩
    have hj1 : (j + 1) % T.length < T.length := Nat.mod_lt _ hn
    rcases nedge_eq_iff.mp hje with ⟨h1, h2⟩ | ⟨h1, h2⟩
    · -- T[j] = v, so j = indexOf v and x is the successor
      have hji : j = T.indexOf v := by
        rw [← h1, List.getD_eq_getElem T 0 hj]
        exact (List.indexOf_getElem hnd j hj).symm
      right
      rw [succT, ← hji, ← h2]
    · -- T[(j+1) % n] = v, so j is the predecessor index and x = T[j]
      have hidx : (j + 1) % T.length = T.indexOf v := by
        rw [← h2, List.getD_eq_getElem T 0 hj1]
        exact (List.indexOf_getElem hnd _ hj1).symm
      left
      rw [predT, ← (cyc_idx_iff hiv hj).mp hidx, ← h1]
  · rintro (rfl | rfl)
    · -- predecessor: the edge at the predecessor index
      rw [mem_edgeList_iff]
      have hip : (T.indexOf v + T.length - 1) % T.length < T.length :=
        Nat.mod_lt _ hn
      refine ⟨(T.indexOf v + T.length - 1) % T.length, hip, ?_⟩
      have hsi : ((T.indexOf v + T.length - 1) % T.length + 1) % T.length
          = T.indexOf v := (cyc_idx_iff hiv hip).mpr rfl
      rw [hsi, getD_indexOf hv, predT]
      exact nedge_comm _ _
    · -- successor: the edge at the index of `v`
      rw [mem_edgeList_iff]
      exact ⟨T.indexOf v, hiv, by rw [getD_indexOf hv, succT]⟩

theorem predT_mem {T : List ℕ} {v : ℕ} (hv : v ∈ T) : predT T v ∈ T := by
  have hn : 0 < T.length := List.length_pos.mpr (List.ne_nil_of_mem hv)
  have h : (T.indexOf v + T.length - 1) % T.length < T.length := Nat.mod_lt _ hn
  rw [predT, List.getD_eq_getElem _ _ h]
  exact List.getElem_mem _

theorem succT_mem {T : List ℕ} {v : ℕ} (hv : v ∈ T) : succT T v ∈ T := by
  have hn : 0 < T.length := List.length_pos.mpr (List.ne_nil_of_mem hv)
  have h : (T.indexOf v + 1) % T.length < T.length := Nat.mod_lt _ hn
  rw [succT, List.getD_eq_getElem _ _ h]
  exact List.getElem_mem _

theorem succT_ne {T : List ℕ} {v : ℕ} (hnd : T.Nodup) (hv : v ∈ T)
    (h2 : 2 ≤ T.length) : succT T v ≠ v := by
  have hiv : T.indexOf v < T.length := List.indexOf_lt_length.mpr hv
  have h1 : (T.indexOf v + 1) % T.length < T.length :=
    Nat.mod_lt _ (by omega)
  rw [succT, List.getD_eq_getElem T 0 h1]
  intro heq
  have hv2 : T[T.indexOf v] = v := List.getElem_indexOf hiv
  have := (hnd.getElem_inj_iff).mp (heq.trans hv2.symm)
  rw [succ_idx_eq hiv] at this
  split_ifs at this <;> omega

theorem predT_ne {T : List ℕ} {v : ℕ} (hnd : T.Nodup) (hv : v ∈ T)
    (h2 : 2 ≤ T.length) : predT T v ≠ v := by
  have hiv : T.indexOf v < T.length := List.indexOf_lt_length.mpr hv
  have h1 : (T.indexOf v + T.length - 1) % T.length < T.length :=
    Nat.mod_lt _ (by omega)
  rw [predT, List.getD_eq_getElem T 0 h1]
  intro heq
  have hv2 : T[T.indexOf v] = v := List.getElem_indexOf hiv
  have := (hnd.getElem_inj_iff).mp (heq.trans hv2.symm)
  rw [pred_idx_eq hiv] at this
  split_ifs at this <;> omega

/-! ### `isTourAfterExchange` and `exchange` (modelled from the spec)

Applying a closed alternating walk to a tour replaces the tour's edge set
by its symmetric difference with the walk's edges; the exchange is feasible
iff that symmetric difference is again a Hamiltonian cycle.  The cycle
test is executable: greedily follow the edges from vertex `0` and then
validate the resulting vertex order completely. -/

/-- Symmetric difference of the tour's edges with the walk's edges, as a
duplicate-free list. -/
def symdiffList (T cw : List ℕ) : List (ℕ × ℕ) :=
  ((edgeList T).filter (fun e => ¬ e ∈ walkEdges cw) ++
    (walkEdges cw).filter (fun e => ¬ e ∈ edgeList T)).dedup

/-- Other endpoints of the edges of `s` incident to `v`, in list order. -/
def incidentsL (s : List (ℕ × ℕ)) (v : ℕ) : List ℕ :=
  (s.filter (fun e => e.1 = v ∨ e.2 = v)).map (fun e => if e.1 = v then e.2 else e.1)

/-- Greedy traversal of the edge list `s` starting at `cur`, never walking
back to `prev`, stopping on returning to vertex `0`. -/
def greedyCycle (s : List (ℕ × ℕ)) : ℕ → ℕ → ℕ → List ℕ
  | 0, _, _ => []
  | fuel + 1, prev, cur =>
    cur ::
      (match ((incidentsL s cur).filter (fun x => x ≠ prev)).head? with
        | none => []
        | some nxt => if nxt = 0 then [] else greedyCycle s fuel cur nxt)

/-- Complete validation that `l` is a Hamiltonian cycle over `[0, N)`
whose edge set is exactly `s`. -/
def validCycle (N : ℕ) (s : List (ℕ × ℕ)) (l : List ℕ) : Bool :=
  decide (l.length = N) && decide l.Nodup && decide (∀ v ∈ l, v < N) &&
    decide ((edgeList l).Nodup) && decide ((edgeList l).toFinset = s.toFinset)

/-- Reconstruct the vertex order of the Hamiltonian cycle with edge set
`s`, if there is one. -/
def reconstructTour (N : ℕ) (s : List (ℕ × ℕ)) : Option (List ℕ) :=
  let l := greedyCycle s N 0 0
  if validCycle N s l then some l else none

/-- `Tour::isTourAfterExchange` for a closed walk. -/
def isTourAfterExchangeB (T cw : List ℕ) : Bool :=
  (reconstructTour T.length (symdiffList T cw)).isSome

/-- `Tour::exchange`: replace the tour by the reconstructed cycle (the
source only calls this after `isTourAfterExchange` succeeded). -/
def exchangeT (T cw : List ℕ) : List ℕ :=
  (reconstructTour T.length (symdiffList T cw)).getD T

theorem reconstructTour_some {N : ℕ} {s : List (ℕ × ℕ)} {l : List ℕ}
    (h : reconstructTour N s = some l) :
    ValidTour N l ∧ (edgeList l).Nodup ∧ (edgeList l).toFinset = s.toFinset := by
  unfold reconstructTour at h
  by_cases hv : validCycle N s (greedyCycle s N 0 0) = true
  · rw [if_pos hv] at h
    cases h
    unfold validCycle at hv
    simp only [Bool.and_eq_true, decide_eq_true_eq] at hv
    exact ⟨⟨hv.1.1.1.2, hv.1.1.1.1, hv.1.1.2⟩, hv.1.2, hv.2⟩
  · rw [if_neg hv] at h
    cases h

theorem symdiffList_toFinset (T cw : List ℕ) :
    (symdiffList T cw).toFinset =
      (edgeFinset T \ (walkEdges cw).toFinset) ∪
        ((walkEdges cw).toFinset \ edgeFinset T) := by
  ext e
  simp [symdiffList, edgeFinset, List.mem_dedup, List.mem_filter,
    Finset.mem_union, Finset.mem_sdiff]

theorem isTourAfterExchangeB_exists {T cw : List ℕ}
    (h : isTourAfterExchangeB T cw = true) :
    ∃ l, reconstructTour T.length (symdiffList T cw) = some l ∧
      exchangeT T cw = l := by
  unfold isTourAfterExchangeB at h
  rcases Option.isSome_iff_exists.mp h with ⟨l, hl⟩
  exact ⟨l, hl, by rw [exchangeT, hl]; rfl⟩

/-! ### The alternating-walk invariant maintained by the search -/

/-- Invariant of `currentWalk` relative to `currentTour`: even-indexed
edges lie on the tour, odd-indexed edges do not, no edge repeats, and the
first vertex occurs nowhere else in the walk. -/
def WalkInv (T w : List ℕ) : Prop :=
  (∀ e ∈ deintP true (walkEdges w), e ∈ edgeFinset T) ∧
  (∀ e ∈ deintP false (walkEdges w), e ∉ edgeFinset T) ∧
  (walkEdges w).Nodup ∧
  (∀ v ∈ w.tail, v ≠ w.headD 0)

/-- What the search knows about `bestAlternatingWalk` when
`highestGain > 0`: it is the closure of a walk satisfying the invariant,
its gain is `highestGain`, and the feasibility check succeeded. -/
def GoodClosed (P : TsplibProblem) (T cw : List ℕ) (g : ℤ) : Prop :=
  ∃ w, cw = closeWalk w ∧ WalkInv T w ∧ 4 ≤ w.length ∧ w.length % 2 = 0 ∧
    exchangeGain P cw = g ∧ isTourAfterExchangeB T cw = true

theorem mem_deintP_or {l : List (ℕ × ℕ)} {e : ℕ × ℕ} :
    e ∈ l ↔ e ∈ deintP true l ∨ e ∈ deintP false l := by
  constructor
  · intro h
    induction l with
    | nil => simp at h
    | cons a r ih =>
      rw [deintP_true_cons, deintP_false_cons]
      rcases List.mem_cons.mp h with rfl | h
      · exact Or.inl (List.mem_cons_self _ _)
      · rcases ih h with h1 | h1
        · exact Or.inr h1
        · exact Or.inl (List.mem_cons_of_mem _ h1)
  · rintro (h | h) <;> exact mem_of_mem_deintP h

theorem walkEdges_vertex {w : List ℕ} {e : ℕ × ℕ} (he : e ∈ walkEdges w) :
    e.1 ∈ w ∧ e.2 ∈ w := by
  induction w with
  | nil => simp [walkEdges] at he
  | cons a r ih =>
    cases r with
    | nil => simp [walkEdges] at he
    | cons b s =>
      rw [show walkEdges (a :: b :: s) = nedge a b :: walkEdges (b :: s)
        from rfl] at he
      rcases List.mem_cons.mp he with rfl | he
      · constructor
        · rcases le_total a b with h | h <;>
            simp [nedge, Nat.min_eq_left, Nat.min_eq_right, h]
        · rcases le_total a b with h | h <;>
            simp [nedge, Nat.max_eq_left, Nat.max_eq_right, h]
      · rcases ih he with ⟨h1, h2⟩
        exact ⟨List.mem_cons_of_mem _ h1, List.mem_cons_of_mem _ h2⟩

/-- In a walk whose head occurs nowhere else, the only edge incident to
the head is the first edge. -/
theorem mem_head_edge {a : ℕ} {t : List ℕ} (hc : ∀ v ∈ t, v ≠ a)
    {e : ℕ × ℕ} (he : e ∈ walkEdges (a :: t)) (hh : e.1 = a ∨ e.2 = a) :
    ∃ b r, t = b :: r ∧ e = nedge a b := by
  cases t with
  | nil => simp [walkEdges] at he
  | cons b s =>
    rw [show walkEdges (a :: b :: s) = nedge a b :: walkEdges (b :: s)
      from rfl] at he
    rcases List.mem_cons.mp he with rfl | he
    · exact ⟨b, s, rfl, rfl⟩
    · exfalso
      rcases walkEdges_vertex he with ⟨h1, h2⟩
      rcases hh with hh | hh
      · exact hc e.1 h1 hh
      · exact hc e.2 h2 hh

theorem getLastD_mem {t : List ℕ} (ht : t ≠ []) (x : ℕ) :
    t.getLastD x ∈ t := by
  induction t generalizing x with
  | nil => simp at ht
  | cons a r ih =>
    rw [List.getLastD_cons]
    cases r with
    | nil => simp
    | cons b s => exact List.mem_cons_of_mem _ (ih (by simp) a)

theorem listsum_map_cast (f : ℕ × ℕ → ℕ) (l : List (ℕ × ℕ)) :
    ((l.map f).sum : ℤ) = (l.map (fun e => (f e : ℤ))).sum := by
  induction l with
  | nil => simp
  | cons a r ih => simp [ih]

/-- Committing a feasible closed walk with the search's invariants yields
a valid tour whose length drops by exactly the exchange gain. -/
theorem exchange_sound {P : TsplibProblem} {N : ℕ} {T cw : List ℕ} {g : ℤ}
    (hT : ValidTour N T) (hG : GoodClosed P T cw g) :
    ValidTour N (exchangeT T cw) ∧
      (tourLength P (exchangeT T cw) : ℤ) = (tourLength P T : ℤ) - g := by
  obtain ⟨w, rfl, hWI, hlen4, hlenEven, hg, hfeas⟩ := hG
  obtain ⟨hEv, hOd, hND, hHd⟩ := hWI
  obtain ⟨l, hrec, hexch⟩ := isTourAfterExchangeB_exists hfeas
  obtain ⟨hVl, hNDl, hFl⟩ := reconstructTour_some hrec
  rw [hT.2.1] at hVl
  rw [hexch]
  refine ⟨hVl, ?_⟩
  obtain ⟨a, t, rfl⟩ : ∃ a t, w = a :: t := by
    cases w with
    | nil => simp at hlen4
    | cons a t => exact ⟨a, t, rfl⟩
  have htne : (3:ℕ) ≤ t.length := by
    have := hlen4
    simp only [List.length_cons] at this
    omega
  have hhd : ∀ v ∈ t, v ≠ a := by
    intro v hv
    have := hHd v (by simpa using hv)
    simpa using this
  have hEcw : walkEdges (closeWalk (a :: t)) =
      walkEdges (a :: t) ++ [nedge ((a :: t).getLastD 0) a] := by
    rw [closeWalk_cons]
    exact walkEdges_append_last (by simp) a
  have hElen : (walkEdges (a :: t)).length = t.length := by
    rw [walkEdges_length (by simp)]
    simp
  have hEodd : (walkEdges (a :: t)).length % 2 = 1 := by
    rw [hElen]
    simp only [List.length_cons] at hlenEven
    omega
  have hdT : deintP true (walkEdges (closeWalk (a :: t))) =
      deintP true (walkEdges (a :: t)) := by
    rw [hEcw, (deintP_append_last _ _).1, if_neg (by omega)]
    simp
  have hdF : deintP false (walkEdges (closeWalk (a :: t))) =
      deintP false (walkEdges (a :: t)) ++ [nedge ((a :: t).getLastD 0) a] := by
    rw [hEcw, (deintP_append_last _ _).2, if_neg (by omega)]
  have hWeq : (walkEdges (closeWalk (a :: t))).toFinset =
      (walkEdges (a :: t)).toFinset ∪ {nedge ((a :: t).getLastD 0) a} := by
    rw [hEcw]
    simp
  have hEsplit : (walkEdges (a :: t)).toFinset =
      (deintP true (walkEdges (a :: t))).toFinset ∪
        (deintP false (walkEdges (a :: t))).toFinset := by
    ext e
    simp only [Finset.mem_union, List.mem_toFinset]
    exact mem_deintP_or
  have hEvTf : (deintP true (walkEdges (a :: t))).toFinset ⊆ edgeFinset T := by
    intro e he
    exact hEv e (List.mem_toFinset.mp he)
  have hOdTf : ∀ e ∈ (deintP false (walkEdges (a :: t))).toFinset,
      e ∉ edgeFinset T := by
    intro e he
    exact hOd e (List.mem_toFinset.mp he)
  have hEvNd := deintP_nodup hND true
  have hOdNd := deintP_nodup hND false
  have hEvcard : (deintP true (walkEdges (a :: t))).toFinset.card =
      ((walkEdges (a :: t)).length + 1) / 2 := by
    rw [List.toFinset_card_of_nodup hEvNd, (deintP_length _).1]
  have hOdcard : (deintP false (walkEdges (a :: t))).toFinset.card =
      (walkEdges (a :: t)).length / 2 := by
    rw [List.toFinset_card_of_nodup hOdNd, (deintP_length _).2]
  have hS : (edgeList l).toFinset =
      (edgeFinset T \ (walkEdges (closeWalk (a :: t))).toFinset) ∪
        ((walkEdges (closeWalk (a :: t))).toFinset \ edgeFinset T) := by
    rw [hFl, symdiffList_toFinset]
  have hScard : ((edgeFinset T \ (walkEdges (closeWalk (a :: t))).toFinset) ∪
      ((walkEdges (closeWalk (a :: t))).toFinset \ edgeFinset T)).card = N := by
    rw [← hS, List.toFinset_card_of_nodup hNDl, edgeList_length]
    exact hVl.2.1
  have hTfcard : (edgeFinset T).card ≤ N := by
    have h1 : (edgeList T).toFinset.card ≤ (edgeList T).length :=
      List.toFinset_card_le _
    rw [edgeList_length, hT.2.1] at h1
    exact h1
  have hsdiff_inter : edgeFinset T \ (walkEdges (closeWalk (a :: t))).toFinset
      = edgeFinset T \ (edgeFinset T ∩ (walkEdges (closeWalk (a :: t))).toFinset) := by
    ext e
    simp only [Finset.mem_sdiff, Finset.mem_inter]
    tauto
  have hcardsplit : ((edgeFinset T \ (walkEdges (closeWalk (a :: t))).toFinset) ∪
      ((walkEdges (closeWalk (a :: t))).toFinset \ edgeFinset T)).card =
      (edgeFinset T).card -
        (edgeFinset T ∩ (walkEdges (closeWalk (a :: t))).toFinset).card +
        ((walkEdges (closeWalk (a :: t))).toFinset \ edgeFinset T).card := by
    rw [Finset.card_union_of_disjoint disjoint_sdiff_sdiff, hsdiff_inter,
      Finset.card_sdiff Finset.inter_subset_left]
  have hinterTf : (edgeFinset T ∩ (walkEdges (closeWalk (a :: t))).toFinset).card
      ≤ (edgeFinset T).card := Finset.card_le_card Finset.inter_subset_left
  by_cases hstarE : nedge ((a :: t).getLastD 0) a ∈ walkEdges (a :: t)
  · -- the closing edge duplicates the first edge of the walk:
    -- the symmetric difference is too small, feasibility cannot hold
    exfalso
    have hstarInc : (nedge ((a :: t).getLastD 0) a).1 = a ∨
        (nedge ((a :: t).getLastD 0) a).2 = a := mem_nedge_iff.mpr (Or.inr rfl)
    obtain ⟨b, r, htbr, hstar_eq⟩ := mem_head_edge hhd hstarE hstarInc
    have hstarEv : nedge ((a :: t).getLastD 0) a ∈
        (deintP true (walkEdges (a :: t))).toFinset := by
      rw [List.mem_toFinset, htbr]
      rw [show walkEdges (a :: b :: r) = nedge a b :: walkEdges (b :: r) from rfl,
        deintP_true_cons]
      rw [htbr] at hstar_eq
      rw [hstar_eq]
      exact List.mem_cons_self _ _
    have hstarTf : nedge ((a :: t).getLastD 0) a ∈ edgeFinset T := hEvTf hstarEv
    have hWE : (walkEdges (closeWalk (a :: t))).toFinset =
        (walkEdges (a :: t)).toFinset := by
      rw [hWeq]
      ext e
      simp only [Finset.mem_union, Finset.mem_singleton, List.mem_toFinset]
      constructor
      · rintro (h | rfl)
        · exact h
        · exact hstarE
      · exact Or.inl
    have h1 : (deintP true (walkEdges (a :: t))).toFinset ⊆
        edgeFinset T ∩ (walkEdges (closeWalk (a :: t))).toFinset := by
      intro e he
      rw [Finset.mem_inter, hWE, hEsplit]
      exact ⟨hEvTf he, Finset.mem_union_left _ he⟩
    have h2 : (walkEdges (closeWalk (a :: t))).toFinset \ edgeFinset T ⊆
        (deintP false (walkEdges (a :: t))).toFinset := by
      intro e he
      rw [Finset.mem_sdiff, hWE, hEsplit, Finset.mem_union] at he
      rcases he.1 with h | h
      · exact absurd (hEvTf h) he.2
      · exact h
    have c1 := Finset.card_le_card h1
    have c2 := Finset.card_le_card h2
    rw [hcardsplit] at hScard
    omega
  by_cases hstarT : nedge ((a :: t).getLastD 0) a ∈ edgeFinset T
  · -- the closing edge is a (distinct) tour edge: the symmetric difference
    -- has N - 2 edges, feasibility cannot hold
    exfalso
    have hstarNotEv : nedge ((a :: t).getLastD 0) a ∉
        (deintP true (walkEdges (a :: t))).toFinset := by
      intro h
      exact hstarE (mem_of_mem_deintP (List.mem_toFinset.mp h))
    have h1 : (deintP true (walkEdges (a :: t))).toFinset ∪
        {nedge ((a :: t).getLastD 0) a} ⊆
        edgeFinset T ∩ (walkEdges (closeWalk (a :: t))).toFinset := by
      intro e he
      rw [Finset.mem_inter, hWeq]
      rcases Finset.mem_union.mp he with h | h
      · exact ⟨hEvTf h,
          Finset.mem_union_left _ (by rw [hEsplit]; exact Finset.mem_union_left _ h)⟩
      · rw [Finset.mem_singleton] at h
        subst h
        exact ⟨hstarT, Finset.mem_union_right _ (Finset.mem_singleton_self _)⟩
    have hc1 : (deintP true (walkEdges (a :: t))).toFinset.card + 1 ≤
        (edgeFinset T ∩ (walkEdges (closeWalk (a :: t))).toFinset).card := by
      have := Finset.card_le_card h1
      rwa [Finset.card_union_of_disjoint
        (Finset.disjoint_singleton_right.mpr hstarNotEv),
        Finset.card_singleton] at this
    have h2 : (walkEdges (closeWalk (a :: t))).toFinset \ edgeFinset T ⊆
        (deintP false (walkEdges (a :: t))).toFinset := by
      intro e he
      rw [Finset.mem_sdiff, hWeq, Finset.mem_union] at he
      rcases he.1 with h | h
      · rw [hEsplit, Finset.mem_union] at h
        rcases h with h | h
        · exact absurd (hEvTf h) he.2
        · exact h
      · rw [Finset.mem_singleton] at h
        subst h
        exact absurd hstarT he.2
    have c2 := Finset.card_le_card h2
    rw [hcardsplit] at hScard
    omega
  · -- the regular case: proper alternation, the length drops by the gain
    have hstarNotEv : nedge ((a :: t).getLastD 0) a ∉
        (deintP true (walkEdges (a :: t))).toFinset := by
      intro h
      exact hstarE (mem_of_mem_deintP (List.mem_toFinset.mp h))
    have hstarNotOd : nedge ((a :: t).getLastD 0) a ∉
        (deintP false (walkEdges (a :: t))).toFinset := by
      intro h
      exact hstarE (mem_of_mem_deintP (List.mem_toFinset.mp h))
    have hTW : edgeFinset T ∩ (walkEdges (closeWalk (a :: t))).toFinset =
        (deintP true (walkEdges (a :: t))).toFinset := by
      ext e
      simp only [Finset.mem_inter]
      constructor
      · rintro ⟨heTf, heW⟩
        rw [hWeq, Finset.mem_union] at heW
        rcases heW with h | h
        · rw [hEsplit, Finset.mem_union] at h
          rcases h with h | h
          · exact h
          · exact absurd heTf (hOdTf _ h)
        · rw [Finset.mem_singleton] at h
          subst h
          exact absurd heTf hstarT
      · intro he
        refine ⟨hEvTf he, ?_⟩
        rw [hWeq]
        exact Finset.mem_union_left _ (by rw [hEsplit]; exact Finset.mem_union_left _ he)
    have hWT : (walkEdges (closeWalk (a :: t))).toFinset \ edgeFinset T =
        (deintP false (walkEdges (a :: t))).toFinset ∪
          {nedge ((a :: t).getLastD 0) a} := by
      ext e
      simp only [Finset.mem_sdiff, Finset.mem_union, Finset.mem_singleton]
      constructor
      · rintro ⟨heW, heT⟩
        rw [hWeq, Finset.mem_union] at heW
        rcases heW with h | h
        · rw [hEsplit, Finset.mem_union] at h
          rcases h with h | h
          · exact absurd (hEvTf h) heT
          · exact Or.inl h
        · exact Or.inr (Finset.mem_singleton.mp h)
      · rintro (h | rfl)
        · refine ⟨?_, hOdTf _ h⟩
          rw [hWeq]
          exact Finset.mem_union_left _
            (by rw [hEsplit]; exact Finset.mem_union_right _ h)
        · refine ⟨?_, hstarT⟩
          rw [hWeq]
          exact Finset.mem_union_right _ (Finset.mem_singleton_self _)
    have hcOd : ((deintP false (walkEdges (a :: t))).toFinset ∪
        {nedge ((a :: t).getLastD 0) a}).card =
        (deintP false (walkEdges (a :: t))).toFinset.card + 1 := by
      rw [Finset.card_union_of_disjoint
        (Finset.disjoint_singleton_right.mpr hstarNotOd), Finset.card_singleton]
    have hEvLe : (deintP true (walkEdges (a :: t))).toFinset.card ≤
        (edgeFinset T).card := Finset.card_le_card hEvTf
    have hTfN : (edgeFinset T).card = N := by
      rw [hcardsplit, hTW, hWT, hcOd] at hScard
      omega
    have hTnd : (edgeList T).Nodup := by
      have hlen : (edgeList T).length = N := by
        rw [edgeList_length]
        exact hT.2.1
      have hd := List.card_toFinset (edgeList T)
      have hdl : (edgeList T).dedup.length = (edgeList T).length := by
        have : (edgeFinset T).card = (edgeList T).dedup.length := hd
        omega
      exact List.dedup_eq_self.mp ((List.dedup_sublist _).eq_of_length hdl)
    -- now the sums
    have hOdApNd : (deintP false (walkEdges (a :: t)) ++
        [nedge ((a :: t).getLastD 0) a]).Nodup := by
      rw [List.nodup_append]
      refine ⟨hOdNd, List.nodup_singleton _, ?_⟩
      intro e he hf
      rw [List.mem_singleton] at hf
      subst hf
      exact hstarNotOd (List.mem_toFinset.mpr he)
    have hOdApF : (deintP false (walkEdges (a :: t)) ++
        [nedge ((a :: t).getLastD 0) a]).toFinset =
        (deintP false (walkEdges (a :: t))).toFinset ∪
          {nedge ((a :: t).getLastD 0) a} := by
      simp
    have hsum_l : (tourLength P l : ℤ) =
        ∑ e ∈ (edgeFinset T \ (walkEdges (closeWalk (a :: t))).toFinset) ∪
          ((walkEdges (closeWalk (a :: t))).toFinset \ edgeFinset T),
            (P.dE e : ℤ) := by
      rw [tourLength, listsum_map_cast, ← List.sum_toFinset _ hNDl, hS]
    have hsum_T : (tourLength P T : ℤ) = ∑ e ∈ edgeFinset T, (P.dE e : ℤ) := by
      rw [tourLength, listsum_map_cast, ← List.sum_toFinset _ hTnd]
      rfl
    have hsum_split :
        ∑ e ∈ (edgeFinset T \ (walkEdges (closeWalk (a :: t))).toFinset) ∪
          ((walkEdges (closeWalk (a :: t))).toFinset \ edgeFinset T),
            (P.dE e : ℤ) =
        (∑ e ∈ edgeFinset T, (P.dE e : ℤ) -
          ∑ e ∈ (deintP true (walkEdges (a :: t))).toFinset, (P.dE e : ℤ)) +
          ∑ e ∈ (deintP false (walkEdges (a :: t))).toFinset ∪
            {nedge ((a :: t).getLastD 0) a}, (P.dE e : ℤ) := by
      rw [Finset.sum_union disjoint_sdiff_sdiff, hsdiff_inter, hTW,
        Finset.sum_sdiff_eq_sub hEvTf, hWT]
    have hgain : g =
        ∑ e ∈ (deintP true (walkEdges (a :: t))).toFinset, (P.dE e : ℤ) -
          ∑ e ∈ (deintP false (walkEdges (a :: t))).toFinset ∪
            {nedge ((a :: t).getLastD 0) a}, (P.dE e : ℤ) := by
      rw [← hg, exchangeGain, (gainFrom_eq_split P _).1, hdT, hdF]
      rw [listsum_map_cast, listsum_map_cast,
        ← List.sum_toFinset _ hEvNd, ← List.sum_toFinset _ hOdApNd, hOdApF]
    rw [hsum_l, hsum_split, hsum_T]
    rw [hgain]
    ring

/-! ### CandidateEdges

A candidate table is a function from a vertex to its candidate list.  The
α-distance tables are external (`alphaDistances`, `optimizedAlphaDistances`
are declared in a header not in the sources) and enter as parameters. -/

/-- `CandidateEdges::Type`. -/
inductive CandidateType where
  | ALL_NEIGHBORS
  | NEAREST_NEIGHBORS
  | ALPHA_NEAREST_NEIGHBORS
  | OPTIMIZED_ALPHA_NEAREST_NEIGHBORS
deriving DecidableEq

/-- `CandidateEdges::allNeighbors`: every row is `0, …, N-1` with the
owning vertex erased. -/
def CandidateEdges.allNeighbors (N : ℕ) : ℕ → List ℕ :=
  fun v => (List.range N).filter (fun x => x ≠ v)

/-- `CandidateEdges::rawNearestNeighbors`: each row is a vector of size
`k`, filled by `partial_sort_copy` with the `min(k, N-1)` smallest other
vertices under the comparator; the remaining entries keep their
value-initialised `0`. -/
def CandidateEdges.rawNearestNeighbors (N k : ℕ) (cmp : ℕ → ℕ → ℕ → Bool) :
    ℕ → List ℕ :=
  fun v =>
    let src := (List.range N).filter (fun x => x ≠ v)
    (src.mergeSort (cmp v)).take k ++ List.replicate (k - src.length) 0

/-- `CandidateEdges::nearestNeighbors`. -/
def CandidateEdges.nearestNeighbors (P : TsplibProblem) (k : ℕ) : ℕ → List ℕ :=
  CandidateEdges.rawNearestNeighbors P.dimension k
    (fun v w1 w2 => decide (P.dist v w1 < P.dist v w2))

/-- `CandidateEdges::alphaNearestNeighbors`; `alpha` is the table produced
by the external `alphaDistances`. -/
def CandidateEdges.alphaNearestNeighbors (P : TsplibProblem)
    (alpha : ℕ → ℕ → ℕ) (k : ℕ) : ℕ → List ℕ :=
  CandidateEdges.rawNearestNeighbors P.dimension k
    (fun v w1 w2 => decide (alpha v w1 < alpha v w2 ∨
      (alpha v w1 = alpha v w2 ∧ P.dist v w1 < P.dist v w2)))

/-- `CandidateEdges::optimizedAlphaNearestNeighbors`; `alphaOpt` is the
table produced by the external `optimizedAlphaDistances`. -/
def CandidateEdges.optimizedAlphaNearestNeighbors (P : TsplibProblem)
    (alphaOpt : ℕ → ℕ → ℕ) (k : ℕ) : ℕ → List ℕ :=
  CandidateEdges.rawNearestNeighbors P.dimension k
    (fun v w1 w2 => decide (alphaOpt v w1 < alphaOpt v w2 ∨
      (alphaOpt v w1 = alphaOpt v w2 ∧ P.dist v w1 < P.dist v w2)))

/-- `CandidateEdges::create`. -/
def CandidateEdges.create (P : TsplibProblem) (alpha alphaOpt : ℕ → ℕ → ℕ)
    (candidateEdgeType : CandidateType) (k : ℕ) : ℕ → List ℕ :=
  match candidateEdgeType with
  | CandidateType.ALL_NEIGHBORS => CandidateEdges.allNeighbors P.dimension
  | CandidateType.NEAREST_NEIGHBORS => CandidateEdges.nearestNeighbors P k
  | CandidateType.ALPHA_NEAREST_NEIGHBORS =>
      CandidateEdges.alphaNearestNeighbors P alpha k
  | CandidateType.OPTIMIZED_ALPHA_NEAREST_NEIGHBORS =>
      CandidateEdges.optimizedAlphaNearestNeighbors P alphaOpt k

theorem filter_range_length {N v : ℕ} (hv : v < N) :
    ((List.range N).filter (fun x => x ≠ v)).length = N - 1 := by
  have hnd := List.nodup_range N
  have he : (List.range N).erase v = (List.range N).filter (fun x => x ≠ v) := by
    rw [hnd.erase_eq_filter]
    congr 1
    funext x
    rw [Bool.eq_iff_iff]
    simp [bne_iff_ne]
  rw [← he, List.length_erase_of_mem (List.mem_range.mpr hv), List.length_range]

theorem rawNearestNeighbors_length {N k v : ℕ} (cmp : ℕ → ℕ → ℕ → Bool)
    (hv : v < N) :
    (CandidateEdges.rawNearestNeighbors N k cmp v).length = k := by
  unfold CandidateEdges.rawNearestNeighbors
  simp only [List.length_append, List.length_take, List.length_replicate,
    List.length_mergeSort]
  rw [filter_range_length hv]
  omega

theorem rawNearestNeighbors_mem {N k v x : ℕ} (cmp : ℕ → ℕ → ℕ → Bool)
    (hx : x ∈ CandidateEdges.rawNearestNeighbors N k cmp v) :
    (x ≠ v ∧ x < N) ∨ x = 0 := by
  unfold CandidateEdges.rawNearestNeighbors at hx
  simp only [List.mem_append] at hx
  rcases hx with hx | hx
  · left
    have hx2 := List.mem_mergeSort.mp (List.mem_of_mem_take hx)
    rcases List.mem_filter.mp hx2 with ⟨hr, hne⟩
    exact ⟨by simpa using hne, List.mem_range.mp hr⟩
  · right
    exact List.eq_of_mem_replicate hx

theorem rawNearestNeighbors_not_self {N k v : ℕ} (cmp : ℕ → ℕ → ℕ → Bool)
    (hv : v < N) (hk : k < N) :
    v ∉ CandidateEdges.rawNearestNeighbors N k cmp v := by
  unfold CandidateEdges.rawNearestNeighbors
  intro hmem
  simp only [List.mem_append] at hmem
  rcases hmem with hmem | hmem
  · have hx2 := List.mem_mergeSort.mp (List.mem_of_mem_take hmem)
    rcases List.mem_filter.mp hx2 with ⟨_, hne⟩
    simp at hne
  · have hlen : ((List.range N).filter (fun x => x ≠ v)).length = N - 1 :=
      filter_range_length hv
    rw [hlen, show k - (N - 1) = 0 by omega] at hmem
    simp at hmem

theorem allNeighbors_length {N v : ℕ} (hv : v < N) :
    (CandidateEdges.allNeighbors N v).length = N - 1 :=
  filter_range_length hv

theorem allNeighbors_not_self (N v : ℕ) :
    v ∉ CandidateEdges.allNeighbors N v := by
  unfold CandidateEdges.allNeighbors
  intro h
  rcases List.mem_filter.mp h with ⟨_, hne⟩
  simp at hne

/-! ### Random start tours

`chooseRandomElement` constructs a fresh `std::random_device` and draws a
uniform index in `[0, size - 1]`; the device's output is modelled as an
explicit value `r`, mapped to an index by reduction modulo the size.  The
empty-vector case (where `size - 1` underflows and the distribution is
ill-formed) is modelled as `none`. -/

def chooseRandomElement (elements : List ℕ) (r : ℕ) : Option ℕ :=
  if elements.isEmpty then none
  else some (elements.getD (r % elements.length) 0)

theorem chooseRandomElement_mem {elements : List ℕ} {r : ℕ} {x : ℕ}
    (h : chooseRandomElement elements r = some x) : x ∈ elements := by
  unfold chooseRandomElement at h
  by_cases he : elements.isEmpty
  · rw [if_pos he] at h
    cases h
  · rw [if_neg he] at h
    cases h
    have hne : elements ≠ [] := by
      intro hh
      rw [hh] at he
      simp at he
    have hlt : r % elements.length < elements.length :=
      Nat.mod_lt _ (List.length_pos.mpr hne)
    rw [List.getD_eq_getElem elements 0 hlt]
    exact List.getElem_mem _

theorem chooseRandomElement_isSome {elements : List ℕ} (r : ℕ)
    (h : elements ≠ []) : (chooseRandomElement elements r).isSome := by
  unfold chooseRandomElement
  rw [if_neg (by simpa using h)]
  rfl

/-- The selection loop of `LinKernighanHeuristic::generateRandomTour`.
Returns the grown tour order and the unused entropy. -/
def genLoop (cand : ℕ → List ℕ) (bestTour : List ℕ) :
    ℕ → ℕ → List ℕ → List ℕ → List ℕ → Option (List ℕ × List ℕ)
  | 0, _, remainingVertices, tourOrder, entropy =>
      if remainingVertices.isEmpty then some (tourOrder, entropy) else none
  | fuel + 1, currentVertex, remainingVertices, tourOrder, entropy =>
      if remainingVertices.isEmpty then some (tourOrder, entropy)
      else
        let candidates := (cand currentVertex).filter
          (fun x => x ∈ remainingVertices)
        let candidatesInBestTour := candidates.filter
          (fun x => decide (bestTour.length ≠ 0) &&
            tourContainsEdgeB bestTour currentVertex x)
        match chooseRandomElement
            (if ¬ candidatesInBestTour.isEmpty then candidatesInBestTour
             else if ¬ candidates.isEmpty then candidates
             else remainingVertices)
            (entropy.headD 0) with
        | none => none
        | some nxt =>
            genLoop cand bestTour fuel nxt
              (remainingVertices.filter (fun x => x ≠ nxt))
              (tourOrder ++ [nxt]) entropy.tail

/-- `LinKernighanHeuristic::generateRandomTour`. -/
def generateRandomTour (P : TsplibProblem) (cand : ℕ → List ℕ)
    (bestTour : List ℕ) (entropy : List ℕ) : Option (List ℕ × List ℕ) :=
  let remainingVertices := List.range P.dimension
  match chooseRandomElement remainingVertices (entropy.headD 0) with
  | none => none
  | some currentVertex =>
      genLoop cand bestTour P.dimension currentVertex
        (remainingVertices.eraseIdx currentVertex) [currentVertex] entropy.tail

/-! ### The Lin–Kernighan search (`LinKernighanHeuristic::improveTour`)

The nested `while (true)` loops are modelled as a single step function on
an explicit state.  A commit (`currentTour.exchange(bestAlternatingWalk)`
followed by `break`) transitions to a freshly initialised round on the new
tour, exactly as re-entering the outer loop body does. -/

def backtrackingDepth : ℕ := 5

def infeasibilityDepth : ℕ := 2

structure LKState where
  currentTour : List ℕ
  vertexChoices : List (List ℕ)
  currentWalk : List ℕ
  bestAlternatingWalk : List ℕ
  highestGain : ℤ
  pos : ℕ
deriving DecidableEq

/-- The state at the top of the outer loop: `X₀` holds all vertices, the
walk is empty, no gain found. -/
def initRound (N : ℕ) (T : List ℕ) : LKState :=
  ⟨T, [List.range N], [], [], 0, 0⟩

inductive StepResult where
  | next (st : LKState)
  | finished (T : List ℕ)
deriving DecidableEq

/-- The odd-position filter building `X_{i+1}` (possible in-edges). -/
def oddStepChoices (P : TsplibProblem) (cand : ℕ → List ℕ) (T w : List ℕ)
    (highestGain : ℤ) (xi : ℕ) : List ℕ :=
  let currentGain := exchangeGain P w
  let xiPredecessor := predT T xi
  let xiSuccessor := succT T xi
  (cand xi).filter (fun x =>
    decide (x ≠ w.headD 0) && decide (x ≠ xiPredecessor) &&
      decide (x ≠ xiSuccessor) && !(containsEdgeB w xi x) &&
      decide (highestGain < currentGain - (P.dist xi x : ℤ)))

/-- The even-position filter building `X_{i+1}` (possible out-edges),
with the three depth-dependent cases of the source. -/
def evenStepChoices (T bestTour w : List ℕ) (pos : ℕ) (xi : ℕ) : List ℕ :=
  if pos = 0 ∧ bestTour.length ≠ 0 then
    let x0Predecessor := predT bestTour (w.headD 0)
    let x0Successor := succT bestTour (w.headD 0)
    (neighborsT T xi).filter (fun nb =>
      decide (nb ≠ w.headD 0) && decide (nb ≠ x0Predecessor) &&
        decide (nb ≠ x0Successor))
  else if pos ≤ infeasibilityDepth then
    (neighborsT T xi).filter (fun nb =>
      decide (nb ≠ w.headD 0) && !(containsEdgeB w xi nb))
  else
    (neighborsT T xi).filter (fun nb =>
      decide (nb ≠ w.headD 0) && !(containsEdgeB w xi nb) &&
        decide (nb ≠ w.getD 1 0) &&
        isTourAfterExchangeB T (appendAndClose w nb))

/-- The closure scoring of step (3): at odd `i ≥ 3` close the walk,
compute its gain and keep it when it strictly beats `highestGain` and the
exchange is feasible. -/
def lkScore (P : TsplibProblem) (T w best : List ℕ) (hg : ℤ) (pos : ℕ) :
    List ℕ × ℤ :=
  if pos % 2 = 1 ∧ 3 ≤ pos then
    let closedWalk := closeWalk w
    let gain := exchangeGain P closedWalk
    if hg < gain ∧ isTourAfterExchangeB T closedWalk = true then
      (closedWalk, gain)
    else (best, hg)
  else (best, hg)

/-- Build `X_{i+1}` according to the parity of `i`. -/
def lkNextSet (P : TsplibProblem) (cand : ℕ → List ℕ)
    (T bestTour w : List ℕ) (hg2 : ℤ) (pos x : ℕ) : List ℕ :=
  if pos % 2 = 1 then oddStepChoices P cand T w hg2 x
  else evenStepChoices T bestTour w pos x

/-- One iteration of the inner loop of `improveTour`. -/
def lkStep (P : TsplibProblem) (cand : ℕ → List ℕ) (bestTour : List ℕ)
    (st : LKState) : StepResult :=
  let Xi := st.vertexChoices.getD st.pos []
  if Xi.isEmpty then
    if 0 < st.highestGain then
      StepResult.next (initRound P.dimension
        (exchangeT st.currentTour st.bestAlternatingWalk))
    else if st.pos = 0 then
      StepResult.finished st.currentTour
    else
      let j := min (st.pos - 1) backtrackingDepth
      StepResult.next { st with
        vertexChoices := st.vertexChoices.take (j + 1),
        currentWalk := st.currentWalk.take j,
        pos := j }
  else
    let x := Xi.getLastD 0
    let choices1 := st.vertexChoices.set st.pos Xi.dropLast
    let w := st.currentWalk ++ [x]
    let scored := lkScore P st.currentTour w st.bestAlternatingWalk
      st.highestGain st.pos
    let nextSet := lkNextSet P cand st.currentTour bestTour w scored.2
      st.pos x
    StepResult.next
      { currentTour := st.currentTour,
        vertexChoices := choices1 ++ [nextSet],
        currentWalk := w,
        bestAlternatingWalk := scored.1,
        highestGain := scored.2,
        pos := st.pos + 1 }

def improveTourAux (P : TsplibProblem) (cand : ℕ → List ℕ)
    (bestTour : List ℕ) : ℕ → LKState → Option (List ℕ)
  | 0, _ => none
  | fuel + 1, st =>
      match lkStep P cand bestTour st with
      | StepResult.finished T => some T
      | StepResult.next st2 => improveTourAux P cand bestTour fuel st2

/-- `LinKernighanHeuristic::improveTour`, driven by fuel (termination is
proved separately). -/
def improveTour (P : TsplibProblem) (cand : ℕ → List ℕ) (bestTour : List ℕ)
    (fuel : ℕ) (startTour : List ℕ) : Option (List ℕ) :=
  improveTourAux P cand bestTour fuel (initRound P.dimension startTour)

/-! ### The trial driver (`LinKernighanHeuristic::findBestTour`)

Instrumented to also return the running value of `currentBestLength`
after each executed trial, so that the number of trials and the
monotonicity of the best length are observable. -/

def findBestTourLoop (P : TsplibProblem) (cand : ℕ → List ℕ)
    (improveFuel : ℕ) (optimumTourLength : ℕ) (acceptableError : ℚ) :
    ℕ → List ℕ → Option ℕ → List ℕ → List ℕ → Option (List ℕ × List ℕ)
  | 0, currentBestTour, _, lengthLog, _ => some (currentBestTour, lengthLog)
  | rem + 1, currentBestTour, currentBestLength, lengthLog, entropy =>
      match generateRandomTour P cand currentBestTour entropy with
      | none => none
      | some (startTour, entropy2) =>
          match improveTour P cand currentBestTour improveFuel startTour with
          | none => none
          | some currentTour =>
              let isBetter :=
                match currentBestLength with
                | none => true
                | some len => decide (tourLength P currentTour < len)
              let bestTour2 := if isBetter then currentTour else currentBestTour
              let bestLen2 : Option ℕ :=
                if isBetter then some (tourLength P currentTour)
                else currentBestLength
              let lengthLog2 := lengthLog ++ [tourLength P bestTour2]
              if (tourLength P bestTour2 : ℚ) <
                  (1 + acceptableError) * (optimumTourLength : ℚ) then
                some (bestTour2, lengthLog2)
              else
                findBestTourLoop P cand improveFuel optimumTourLength
                  acceptableError rem bestTour2 bestLen2 lengthLog2 entropy2

/-- `LinKernighanHeuristic::findBestTour`.  `numberOfTrials < 1` throws in
the source; this is modelled as `none`.  The initial `currentBestTour` is
the default tour (dimension `0`) and the initial `currentBestLength` is
the maximal `distance_t` value, modelled as `none`. -/
def findBestTour (P : TsplibProblem) (cand : ℕ → List ℕ) (improveFuel : ℕ)
    (numberOfTrials : ℕ) (optimumTourLength : ℕ) (acceptableError : ℚ)
    (entropy : List ℕ) : Option (List ℕ × List ℕ) :=
  if numberOfTrials < 1 then none
  else
    findBestTourLoop P cand improveFuel optimumTourLength acceptableError
      numberOfTrials [] none [] entropy

/-! ### Supporting lemmas for the search invariant -/

theorem getD_set_eq (l : List (List ℕ)) (i j : ℕ) (a d : List ℕ) :
    (l.set i a).getD j d = if i = j ∧ i < l.length then a else l.getD j d := by
  rcases eq_or_ne i j with rfl | hne
  · by_cases h : i < l.length
    · simp [List.getD, List.getElem?_set_self', h]
    · have hs : l.set i a = l := List.set_eq_of_length_le (by omega)
      simp [List.getD, h, hs]
  · simp [List.getD, List.getElem?_set_ne hne, hne]

theorem validTour_mem {N : ℕ} {T : List ℕ} (h : ValidTour N T) {v : ℕ} :
    v ∈ T ↔ v < N := by
  constructor
  · exact fun hv => h.2.2 v hv
  · intro hv
    have hsub : T.toFinset ⊆ Finset.range N := by
      intro y hy
      exact Finset.mem_range.mpr (h.2.2 y (List.mem_toFinset.mp hy))
    have hcard : (Finset.range N).card ≤ T.toFinset.card := by
      rw [Finset.card_range, List.toFinset_card_of_nodup h.1, h.2.1]
    have := Finset.eq_of_subset_of_card_le hsub hcard
    rw [← List.mem_toFinset, this]
    exact Finset.mem_range.mpr hv

theorem WalkInv_nil (T : List ℕ) : WalkInv T [] := by
  refine ⟨?_, ?_, ?_, ?_⟩ <;> simp [walkEdges, deintP]

theorem WalkInv_singleton (T : List ℕ) (x : ℕ) : WalkInv T [x] := by
  refine ⟨?_, ?_, ?_, ?_⟩ <;> simp [walkEdges, deintP]

theorem headD_append_of_ne_nil {w : List ℕ} (hw : w ≠ []) (x : ℕ) :
    (w ++ [x]).headD 0 = w.headD 0 := by
  cases w with
  | nil => simp at hw
  | cons a r => simp

theorem getLastD_append_singleton (w : List ℕ) (x : ℕ) :
    (w ++ [x]).getLastD 0 = x := by
  simp [List.getLastD_eq_getLast?]

theorem WalkInv_append_even {T walk : List ℕ} {x : ℕ}
    (hWI : WalkInv T walk) (hne : walk ≠ [])
    (hpar : (walk.length - 1) % 2 = 0)
    (hT : nedge (walk.getLastD 0) x ∈ edgeFinset T)
    (hnw : nedge (walk.getLastD 0) x ∉ walkEdges walk)
    (hhd : x ≠ walk.headD 0) : WalkInv T (walk ++ [x]) := by
  obtain ⟨hEv, hOd, hND, hHd⟩ := hWI
  have hWE := walkEdges_append_last hne x
  have hlen : (walkEdges walk).length = walk.length - 1 := walkEdges_length hne
  refine ⟨?_, ?_, ?_, ?_⟩
  · intro e he
    rw [hWE, (deintP_append_last _ _).1, if_pos (by omega)] at he
    rcases List.mem_append.mp he with h | h
    · exact hEv e h
    · rw [List.mem_singleton] at h
      subst h
      exact hT
  · intro e he
    rw [hWE, (deintP_append_last _ _).2, if_pos (by omega)] at he
    rw [List.append_nil] at he
    exact hOd e he
  · rw [hWE, List.nodup_append]
    exact ⟨hND, List.nodup_singleton _, by
      intro e he hf
      rw [List.mem_singleton] at hf
      subst hf
      exact hnw he⟩
  · intro v hv
    rw [headD_append_of_ne_nil hne]
    cases walk with
    | nil => simp at hne
    | cons a r =>
      simp only [List.cons_append, List.tail_cons] at hv
      rcases List.mem_append.mp hv with h | h
      · exact hHd v (by simpa using h)
      · rw [List.mem_singleton] at h
        subst h
        simpa using hhd

theorem WalkInv_append_odd {T walk : List ℕ} {x : ℕ}
    (hWI : WalkInv T walk) (hne : walk ≠ [])
    (hpar : (walk.length - 1) % 2 = 1)
    (hT : nedge (walk.getLastD 0) x ∉ edgeFinset T)
    (hnw : nedge (walk.getLastD 0) x ∉ walkEdges walk)
    (hhd : x ≠ walk.headD 0) : WalkInv T (walk ++ [x]) := by
  obtain ⟨hEv, hOd, hND, hHd⟩ := hWI
  have hWE := walkEdges_append_last hne x
  have hlen : (walkEdges walk).length = walk.length - 1 := walkEdges_length hne
  refine ⟨?_, ?_, ?_, ?_⟩
  · intro e he
    rw [hWE, (deintP_append_last _ _).1, if_neg (by omega)] at he
    rw [List.append_nil] at he
    exact hEv e he
  · intro e he
    rw [hWE, (deintP_append_last _ _).2, if_neg (by omega)] at he
    rcases List.mem_append.mp he with h | h
    · exact hOd e h
    · rw [List.mem_singleton] at h
      subst h
      exact hT
  · rw [hWE, List.nodup_append]
    exact ⟨hND, List.nodup_singleton _, by
      intro e he hf
      rw [List.mem_singleton] at hf
      subst hf
      exact hnw he⟩
  · intro v hv
    rw [headD_append_of_ne_nil hne]
    cases walk with
    | nil => simp at hne
    | cons a r =>
      simp only [List.cons_append, List.tail_cons] at hv
      rcases List.mem_append.mp hv with h | h
      · exact hHd v (by simpa using h)
      · rw [List.mem_singleton] at h
        subst h
        simpa using hhd

theorem deintP_take_subset {b : Bool} {l : List (ℕ × ℕ)} {m : ℕ} {e : ℕ × ℕ}
    (h : e ∈ deintP b (l.take m)) : e ∈ deintP b l := by
  induction l generalizing b m with
  | nil => simpa using h
  | cons a r ih =>
    cases m with
    | zero => simp [deintP] at h
    | succ m =>
      rw [List.take_succ_cons] at h
      cases b with
      | true =>
        rw [deintP_true_cons] at h
        rw [deintP_true_cons]
        rcases List.mem_cons.mp h with rfl | h
        · exact List.mem_cons_self _ _
        · exact List.mem_cons_of_mem _ (ih h)
      | false =>
        rw [deintP_false_cons] at h
        rw [deintP_false_cons]
        exact ih h

theorem WalkInv_take {T w : List ℕ} (hWI : WalkInv T w) (m : ℕ) :
    WalkInv T (w.take m) := by
  obtain ⟨hEv, hOd, hND, hHd⟩ := hWI
  refine ⟨?_, ?_, ?_, ?_⟩
  · intro e he
    rw [walkEdges_take] at he
    exact hEv e (deintP_take_subset he)
  · intro e he
    rw [walkEdges_take] at he
    exact hOd e (deintP_take_subset he)
  · rw [walkEdges_take]
    exact hND.sublist (List.take_sublist _ _)
  · intro v hv
    cases w with
    | nil => simp at hv
    | cons a r =>
      cases m with
      | zero => simp at hv
      | succ m =>
        rw [List.take_succ_cons] at hv ⊢
        simp only [List.tail_cons] at hv
        have := hHd v (by
          simp only [List.tail_cons]
          exact List.mem_of_mem_take hv)
        simpa using this

/-- Well-formedness of a candidate table produced by
`CandidateEdges::create`: entries are vertices of the problem. -/
def CandWF (N : ℕ) (cand : ℕ → List ℕ) : Prop :=
  ∀ v < N, ∀ x ∈ cand v, x < N

instance (N : ℕ) (cand : ℕ → List ℕ) : Decidable (CandWF N cand) := by
  unfold CandWF
  infer_instance

/-- Largest candidate-row length over the problem's vertices. -/
def candMax (N : ℕ) (cand : ℕ → List ℕ) : ℕ :=
  (Finset.range N).sup (fun v => (cand v).length)

theorem candMax_le {N : ℕ} {cand : ℕ → List ℕ} {v : ℕ} (hv : v < N) :
    (cand v).length ≤ candMax N cand := by
  have h := Finset.le_sup (α := ℕ) (f := fun v => (cand v).length)
    (Finset.mem_range.mpr hv)
  exact h

/-- What is known about every element stored in a pending choice set
`X_j` (`j ≥ 1`), relative to the walk prefix `p = currentWalk.take j` it
was built from.  The parity of `(p.length - 1)` is the parity of the step
that built the set. -/
def ExtOK (T p : List ℕ) (x : ℕ) : Prop :=
  if (p.length - 1) % 2 = 0 then
    (x = predT T (p.getLastD 0) ∨ x = succT T (p.getLastD 0)) ∧
      x ≠ p.headD 0 ∧ nedge (p.getLastD 0) x ∉ walkEdges p
  else
    x ≠ p.headD 0 ∧ nedge (p.getLastD 0) x ∉ edgeFinset T ∧
      nedge (p.getLastD 0) x ∉ walkEdges p

/-- The reachability invariant of `improveTour`'s inner loop, at the top
of each iteration. -/
structure LKInv (P : TsplibProblem) (cand : ℕ → List ℕ) (st : LKState) :
    Prop where
  tourValid : ValidTour P.dimension st.currentTour
  choicesLen : st.vertexChoices.length = st.pos + 1
  walkLen : st.currentWalk.length = st.pos
  walkInv : WalkInv st.currentTour st.currentWalk
  walkBound : ∀ v ∈ st.currentWalk, v < P.dimension
  gainNonneg : 0 ≤ st.highestGain
  bestGood : 0 < st.highestGain →
    GoodClosed P st.currentTour st.bestAlternatingWalk st.highestGain
  choicesBound : ∀ j, ∀ x ∈ st.vertexChoices.getD j [], x < P.dimension
  choicesExt : ∀ j, 1 ≤ j → ∀ x ∈ st.vertexChoices.getD j [],
    ExtOK st.currentTour (st.currentWalk.take j) x
  choicesSize : ∀ j, (st.vertexChoices.getD j []).length ≤
    max P.dimension (candMax P.dimension cand) + 2

theorem getD_nil_of_ge {l : List (List ℕ)} {j : ℕ} (h : l.length ≤ j) :
    l.getD j [] = [] :=
  List.getD_eq_default _ _ h

theorem initRound_inv {P : TsplibProblem} {cand : ℕ → List ℕ} {T : List ℕ}
    (hT : ValidTour P.dimension T) : LKInv P cand (initRound P.dimension T) := by
  refine ⟨hT, ?_, ?_, ?_, ?_, ?_, ?_, ?_, ?_, ?_⟩
  · simp [initRound]
  · simp [initRound]
  · exact WalkInv_nil T
  · simp [initRound]
  · simp [initRound]
  · intro h
    simp [initRound] at h
  · intro j x hx
    cases j with
    | zero =>
      simp only [initRound, List.getD_cons_zero] at hx
      exact List.mem_range.mp hx
    | succ j =>
      rw [show (initRound P.dimension T).vertexChoices = [List.range P.dimension]
        from rfl, getD_nil_of_ge (by simp)] at hx
      simp at hx
  · intro j hj x hx
    rw [show (initRound P.dimension T).vertexChoices = [List.range P.dimension]
      from rfl, getD_nil_of_ge (by simpa using hj)] at hx
    simp at hx
  · intro j
    cases j with
    | zero =>
      simp only [initRound, List.getD_cons_zero, List.length_range]
      exact le_trans (le_max_left _ _) (Nat.le_add_right _ 2)
    | succ j =>
      rw [show (initRound P.dimension T).vertexChoices = [List.range P.dimension]
        from rfl, getD_nil_of_ge (by simp)]
      simp

theorem choices_pop_getD {choices : List (List ℕ)} {pos : ℕ}
    (hlen : choices.length = pos + 1) (v ns : List ℕ) (j : ℕ) :
    ((choices.set pos v) ++ [ns]).getD j [] =
      if j < pos then choices.getD j []
      else if j = pos then v
      else if j = pos + 1 then ns
      else [] := by
  have hset : (choices.set pos v).length = pos + 1 := by simp [hlen]
  by_cases h1 : j < pos
  · rw [List.getD_append _ _ _ _ (by omega), getD_set_eq,
      if_neg (by omega), if_pos h1]
  · by_cases h2 : j = pos
    · subst h2
      rw [List.getD_append _ _ _ _ (by omega), getD_set_eq,
        if_pos ⟨rfl, by omega⟩, if_neg h1, if_pos rfl]
    · by_cases h3 : j = pos + 1
      · subst h3
        rw [List.getD_append_right _ _ _ _ (by omega), hset]
        simp [h1, h2]
      · rw [List.getD_append_right _ _ _ _ (by omega), hset,
          if_neg h1, if_neg h2, if_neg h3]
        rw [getD_nil_of_ge (by simp; omega)]

theorem not_containsEdgeB {w : List ℕ} {u v : ℕ}
    (h : containsEdgeB w u v = false) : nedge u v ∉ walkEdges w := by
  intro hmem
  rw [← containsEdgeB_iff_mem] at hmem
  rw [h] at hmem
  cases hmem

theorem oddStepChoices_ok {P : TsplibProblem} {cand : ℕ → List ℕ}
    {T w : List ℕ} {hg : ℤ} {x : ℕ}
    (hTv : ValidTour P.dimension T) (hC : CandWF P.dimension cand)
    (hx : x < P.dimension) (hlast : w.getLastD 0 = x)
    (hparity : (w.length - 1) % 2 = 1) :
    (∀ y ∈ oddStepChoices P cand T w hg x, y < P.dimension ∧ ExtOK T w y) ∧
      (oddStepChoices P cand T w hg x).length ≤ (cand x).length := by
  constructor
  · intro y hy
    rcases List.mem_filter.mp hy with ⟨hmem, hcond⟩
    simp only [Bool.and_eq_true, decide_eq_true_eq, Bool.not_eq_true'] at hcond
    obtain ⟨⟨⟨⟨hhead, hpred⟩, hsucc⟩, hwalk⟩, _⟩ := hcond
    refine ⟨hC x hx y hmem, ?_⟩
    rw [ExtOK, if_neg (by omega)]
    have hxT : x ∈ T := (validTour_mem hTv).mpr hx
    refine ⟨hhead, ?_, ?_⟩
    · rw [hlast]
      intro hTm
      rcases (edge_mem_iff_pred_or_succ hTv.1 hxT y).mp
        (List.mem_toFinset.mp hTm) with h | h
      · exact hpred h
      · exact hsucc h
    · rw [hlast]
      exact not_containsEdgeB hwalk
  · exact List.length_filter_le _ _

theorem evenStepChoices_ok {P : TsplibProblem} {T bestTour w : List ℕ}
    {pos x : ℕ} (hTv : ValidTour P.dimension T) (hx : x < P.dimension)
    (hlast : w.getLastD 0 = x) (hparity : (w.length - 1) % 2 = 0)
    (hzero : pos = 0 → walkEdges w = []) :
    (∀ y ∈ evenStepChoices T bestTour w pos x, y < P.dimension ∧ ExtOK T w y) ∧
      (evenStepChoices T bestTour w pos x).length ≤ 2 := by
  have hxT : x ∈ T := (validTour_mem hTv).mpr hx
  have hnbr : ∀ y ∈ neighborsT T x, (y = predT T x ∨ y = succT T x) ∧
      y < P.dimension := by
    intro y hy
    rcases List.mem_pair.mp (by simpa [neighborsT] using hy) with rfl | rfl
    · exact ⟨Or.inl rfl, (validTour_mem hTv).mp (predT_mem hxT)⟩
    · exact ⟨Or.inr rfl, (validTour_mem hTv).mp (succT_mem hxT)⟩
  constructor
  · intro y hy
    unfold evenStepChoices at hy
    split_ifs at hy with hcase1 hcase2
    · rcases List.mem_filter.mp hy with ⟨hmem, hcond⟩
      simp only [Bool.and_eq_true, decide_eq_true_eq] at hcond
      obtain ⟨⟨hhead, _⟩, _⟩ := hcond
      rcases hnbr y hmem with ⟨hps, hyN⟩
      refine ⟨hyN, ?_⟩
      rw [ExtOK, if_pos (by omega), hlast]
      exact ⟨hps, hhead, by rw [hzero hcase1.1]; simp⟩
    · rcases List.mem_filter.mp hy with ⟨hmem, hcond⟩
      simp only [Bool.and_eq_true, decide_eq_true_eq,
        Bool.not_eq_true'] at hcond
      obtain ⟨hhead, hwalk⟩ := hcond
      rcases hnbr y hmem with ⟨hps, hyN⟩
      refine ⟨hyN, ?_⟩
      rw [ExtOK, if_pos (by omega), hlast]
      exact ⟨hps, hhead, not_containsEdgeB hwalk⟩
    · rcases List.mem_filter.mp hy with ⟨hmem, hcond⟩
      simp only [Bool.and_eq_true, decide_eq_true_eq,
        Bool.not_eq_true'] at hcond
      obtain ⟨⟨⟨hhead, hwalk⟩, _⟩, _⟩ := hcond
      rcases hnbr y hmem with ⟨hps, hyN⟩
      refine ⟨hyN, ?_⟩
      rw [ExtOK, if_pos (by omega), hlast]
      exact ⟨hps, hhead, not_containsEdgeB hwalk⟩
  · unfold evenStepChoices
    split_ifs <;>
      exact le_trans (List.length_filter_le _ _) (by simp [neighborsT])

theorem getD_take (l : List (List ℕ)) (n j : ℕ) (d : List ℕ) :
    (l.take n).getD j d = if j < n then l.getD j d else d := by
  by_cases h : j < n
  · rw [if_pos h]
    rw [List.getD_eq_getD_get?, List.getD_eq_getD_get?]
    congr 1
    exact List.get?_take h
  · rw [if_neg h]
    exact List.getD_eq_default _ _ (le_trans (by simp; omega) (le_refl _))

theorem lkStep_finished {P : TsplibProblem} {cand : ℕ → List ℕ}
    {bestTour : List ℕ} {st : LKState} {T : List ℕ}
    (hstep : lkStep P cand bestTour st = StepResult.finished T) :
    T = st.currentTour ∧
      (st.vertexChoices.getD st.pos []).isEmpty = true ∧
      ¬ 0 < st.highestGain ∧ st.pos = 0 := by
  simp only [lkStep] at hstep
  split_ifs at hstep with h1 h2 h3 <;>
    first
      | (cases hstep; exact ⟨rfl, h1, h2, h3⟩)
      | cases hstep

theorem lkScore_ok {P : TsplibProblem} {T w best : List ℕ} {hg : ℤ}
    {pos : ℕ} (hg0 : 0 ≤ hg) (hbest : 0 < hg → GoodClosed P T best hg)
    (hWI : WalkInv T w) (hwlen : w.length = pos + 1) :
    0 ≤ (lkScore P T w best hg pos).2 ∧
      hg ≤ (lkScore P T w best hg pos).2 ∧
      (0 < (lkScore P T w best hg pos).2 →
        GoodClosed P T (lkScore P T w best hg pos).1
          (lkScore P T w best hg pos).2) := by
  simp only [lkScore]
  split_ifs with hcl hupd
  · -- closure scored and kept
    refine ⟨?_, ?_, ?_⟩
    · show (0:ℤ) ≤ exchangeGain P (closeWalk w)
      have := hupd.1
      omega
    · show hg ≤ exchangeGain P (closeWalk w)
      have := hupd.1
      omega
    · intro _
      exact ⟨w, rfl, hWI, by omega, by omega, rfl, hupd.2⟩
  · exact ⟨hg0, le_refl _, hbest⟩
  · exact ⟨hg0, le_refl _, hbest⟩

theorem lkNextSet_ok {P : TsplibProblem} {cand : ℕ → List ℕ}
    {T bestTour w : List ℕ} {hg2 : ℤ} {pos x : ℕ}
    (hTv : ValidTour P.dimension T) (hC : CandWF P.dimension cand)
    (hx : x < P.dimension) (hlast : w.getLastD 0 = x)
    (hwlen : w.length = pos + 1) (hzero : pos = 0 → walkEdges w = []) :
    (∀ y ∈ lkNextSet P cand T bestTour w hg2 pos x,
        y < P.dimension ∧ ExtOK T w y) ∧
      (lkNextSet P cand T bestTour w hg2 pos x).length ≤
        max P.dimension (candMax P.dimension cand) + 2 := by
  unfold lkNextSet
  split_ifs with hodd
  · have hpar : (w.length - 1) % 2 = 1 := by omega
    rcases @oddStepChoices_ok P cand T w hg2 x hTv hC hx hlast hpar with ⟨h1, h2⟩
    refine ⟨h1, le_trans h2 ?_⟩
    exact le_trans (candMax_le hx)
      (le_trans (le_max_right _ _) (Nat.le_add_right _ 2))
  · have hpar : (w.length - 1) % 2 = 0 := by omega
    rcases @evenStepChoices_ok P T bestTour w pos x hTv hx hlast hpar hzero
      with ⟨h1, h2⟩
    exact ⟨h1, le_trans h2 (Nat.le_add_left 2 _)⟩

/-- One step of the inner loop preserves the reachability invariant and
never increases the tour length; only a commit changes the tour, and a
commit strictly shortens it. -/
theorem lkStep_next_inv {P : TsplibProblem} {cand : ℕ → List ℕ}
    {bestTour : List ℕ} {st st2 : LKState}
    (hC : CandWF P.dimension cand) (hI : LKInv P cand st)
    (hstep : lkStep P cand bestTour st = StepResult.next st2) :
    LKInv P cand st2 ∧
      (st2.currentTour = st.currentTour ∨
        tourLength P st2.currentTour < tourLength P st.currentTour) := by
  simp only [lkStep] at hstep
  by_cases h1 : (st.vertexChoices.getD st.pos []).isEmpty = true
  · rw [if_pos h1] at hstep
    by_cases h2 : 0 < st.highestGain
    · -- commit
      rw [if_pos h2] at hstep
      injection hstep with hst2
      subst hst2
      have hgc := hI.bestGood h2
      have hex := exchange_sound hI.tourValid hgc
      refine ⟨initRound_inv hex.1, Or.inr ?_⟩
      show tourLength P (exchangeT st.currentTour st.bestAlternatingWalk) <
        tourLength P st.currentTour
      have heq := hex.2
      omega
    · rw [if_neg h2] at hstep
      by_cases h3 : st.pos = 0
      · rw [if_pos h3] at hstep
        cases hstep
      · -- backtrack
        rw [if_neg h3] at hstep
        injection hstep with hst2
        subst hst2
        refine ⟨?_, Or.inl rfl⟩
        have hpos1 : 1 ≤ st.pos := Nat.one_le_iff_ne_zero.mpr h3
        have hjle : min (st.pos - 1) backtrackingDepth ≤ st.pos - 1 :=
          min_le_left _ _
        refine ⟨hI.tourValid, ?_, ?_, ?_, ?_, hI.gainNonneg, ?_, ?_, ?_, ?_⟩
        · simp only [List.length_take, hI.choicesLen]
          omega
        · simp only [List.length_take, hI.walkLen]
          omega
        · exact WalkInv_take hI.walkInv _
        · intro v hv
          exact hI.walkBound v (List.mem_of_mem_take hv)
        · intro h
          exact hI.bestGood h
        · intro j y hy
          rw [getD_take] at hy
          split_ifs at hy with hlt
          · exact hI.choicesBound j y hy
          · simp at hy
        · intro j hj y hy
          rw [getD_take] at hy
          split_ifs at hy with hlt
          · have hold := hI.choicesExt j hj y hy
            show ExtOK st.currentTour
              ((st.currentWalk.take (min (st.pos - 1) backtrackingDepth)).take j) y
            rw [List.take_take, min_eq_left (by omega)]
            exact hold
          · simp at hy
        · intro j
          rw [getD_take]
          split_ifs with hlt
          · exact hI.choicesSize j
          · simp
  · -- pop
    rw [if_neg h1] at hstep
    injection hstep with hst2
    subst hst2
    refine ⟨?_, Or.inl rfl⟩
    have hXne : st.vertexChoices.getD st.pos [] ≠ [] := by
      intro hh
      rw [hh] at h1
      simp at h1
    have hxmem : (st.vertexChoices.getD st.pos []).getLastD 0 ∈
        st.vertexChoices.getD st.pos [] := getLastD_mem hXne 0
    have hxN : (st.vertexChoices.getD st.pos []).getLastD 0 < P.dimension :=
      hI.choicesBound st.pos _ hxmem
    have hwlast : (st.currentWalk ++
        [(st.vertexChoices.getD st.pos []).getLastD 0]).getLastD 0 =
        (st.vertexChoices.getD st.pos []).getLastD 0 :=
      getLastD_append_singleton _ _
    have hwlen : (st.currentWalk ++
        [(st.vertexChoices.getD st.pos []).getLastD 0]).length = st.pos + 1 := by
      simp [hI.walkLen]
    have htake : st.currentWalk.take st.pos = st.currentWalk :=
      List.take_of_length_le (le_of_eq hI.walkLen)
    have hzero : st.pos = 0 → walkEdges (st.currentWalk ++
        [(st.vertexChoices.getD st.pos []).getLastD 0]) = [] := by
      intro hp0
      have hwnil : st.currentWalk = [] :=
        List.length_eq_zero.mp (by rw [hI.walkLen, hp0])
      rw [hwnil]
      simp [walkEdges]
    have hF2 : WalkInv st.currentTour (st.currentWalk ++
        [(st.vertexChoices.getD st.pos []).getLastD 0]) := by
      by_cases hp0 : st.pos = 0
      · have hwnil : st.currentWalk = [] :=
          List.length_eq_zero.mp (by rw [hI.walkLen, hp0])
        rw [hwnil]
        exact WalkInv_singleton _ _
      · have hpos1 : 1 ≤ st.pos := Nat.one_le_iff_ne_zero.mpr hp0
        have hwne : st.currentWalk ≠ [] := by
          intro hh
          have hl := hI.walkLen
          rw [hh] at hl
          simp at hl
          exact hp0 hl.symm
        have hExt := hI.choicesExt st.pos hpos1 _ hxmem
        rw [htake, ExtOK] at hExt
        by_cases hpar : (st.currentWalk.length - 1) % 2 = 0
        · rw [if_pos hpar] at hExt
          obtain ⟨hps, hhd, hnw⟩ := hExt
          have hlwmem : st.currentWalk.getLastD 0 ∈ st.currentWalk :=
            getLastD_mem hwne 0
          have hlw : st.currentWalk.getLastD 0 ∈ st.currentTour :=
            (validTour_mem hI.tourValid).mpr (hI.walkBound _ hlwmem)
          have hTm : nedge (st.currentWalk.getLastD 0)
              ((st.vertexChoices.getD st.pos []).getLastD 0) ∈
              edgeFinset st.currentTour := by
            rw [edgeFinset, List.mem_toFinset]
            exact (edge_mem_iff_pred_or_succ hI.tourValid.1 hlw _).mpr hps
          exact WalkInv_append_even hI.walkInv hwne hpar hTm hnw hhd
        · rw [if_neg hpar] at hExt
          obtain ⟨hhd, hTm, hnw⟩ := hExt
          exact WalkInv_append_odd hI.walkInv hwne (by omega) hTm hnw hhd
    have hsc := lkScore_ok hI.gainNonneg hI.bestGood hF2 hwlen
    have hns := @lkNextSet_ok P cand st.currentTour bestTour
      (st.currentWalk ++ [(st.vertexChoices.getD st.pos []).getLastD 0])
      ((lkScore P st.currentTour (st.currentWalk ++
        [(st.vertexChoices.getD st.pos []).getLastD 0])
        st.bestAlternatingWalk st.highestGain st.pos).2)
      st.pos ((st.vertexChoices.getD st.pos []).getLastD 0)
      hI.tourValid hC hxN hwlast hwlen hzero
    refine ⟨hI.tourValid, ?_, ?_, hF2, ?_, hsc.1, hsc.2.2, ?_, ?_, ?_⟩
    · simp [hI.choicesLen]
    · exact hwlen
    · intro v hv
      rcases List.mem_append.mp hv with h | h
      · exact hI.walkBound v h
      · rw [List.mem_singleton] at h
        subst h
        exact hxN
    · intro j y hy
      rw [choices_pop_getD hI.choicesLen] at hy
      split_ifs at hy with hlt heq heq1
      · exact hI.choicesBound j y hy
      · subst heq
        exact hI.choicesBound st.pos y (List.dropLast_subset _ hy)
      · exact ((hns.1 y hy).1)
      · simp at hy
    · intro j hj y hy
      rw [choices_pop_getD hI.choicesLen] at hy
      split_ifs at hy with hlt heq heq1
      · have hold := hI.choicesExt j hj y hy
        show ExtOK st.currentTour ((st.currentWalk ++
          [(st.vertexChoices.getD st.pos []).getLastD 0]).take j) y
        rw [List.take_append_of_le_length (by rw [hI.walkLen]; omega)]
        exact hold
      · subst heq
        have hold := hI.choicesExt st.pos hj y (List.dropLast_subset _ hy)
        show ExtOK st.currentTour ((st.currentWalk ++
          [(st.vertexChoices.getD st.pos []).getLastD 0]).take st.pos) y
        rw [List.take_append_of_le_length (le_of_eq hI.walkLen.symm)]
        exact hold
      · subst heq1
        have hext := (hns.1 y hy).2
        show ExtOK st.currentTour ((st.currentWalk ++
          [(st.vertexChoices.getD st.pos []).getLastD 0]).take (st.pos + 1)) y
        rw [List.take_of_length_le (le_of_eq hwlen)]
        exact hext
      · simp at hy
    · intro j
      rw [choices_pop_getD hI.choicesLen]
      split_ifs with hlt heq heq1
      · exact hI.choicesSize j
      · have hdl : (st.vertexChoices.getD st.pos []).dropLast.length ≤
            (st.vertexChoices.getD st.pos []).length := by
          rw [List.length_dropLast]
          omega
        exact le_trans hdl (hI.choicesSize st.pos)
      · exact hns.2
      · simp

theorem improveTourAux_sound {P : TsplibProblem} {cand : ℕ → List ℕ}
    {bestTour : List ℕ} (hC : CandWF P.dimension cand) :
    ∀ fuel (st : LKState) (T : List ℕ), LKInv P cand st →
      improveTourAux P cand bestTour fuel st = some T →
      ValidTour P.dimension T ∧
        tourLength P T ≤ tourLength P st.currentTour := by
  intro fuel
  induction fuel with
  | zero =>
    intro st T hI h
    cases h
  | succ fuel ih =>
    intro st T hI h
    rw [improveTourAux] at h
    cases hstep : lkStep P cand bestTour st with
    | finished T2 =>
      rw [hstep] at h
      cases h
      rcases lkStep_finished hstep with ⟨hT2, _⟩
      rw [hT2]
      exact ⟨hI.tourValid, le_refl _⟩
    | next st2 =>
      rw [hstep] at h
      rcases lkStep_next_inv hC hI hstep with ⟨hI2, hdec⟩
      rcases ih st2 T hI2 h with ⟨hv, hle⟩
      refine ⟨hv, le_trans hle ?_⟩
      rcases hdec with heq | hlt
      · rw [heq]
      · exact le_of_lt hlt

/-- Whatever `improveTour` returns is a valid tour no longer than the
start tour. -/
theorem improveTour_sound {P : TsplibProblem} {cand : ℕ → List ℕ}
    {bestTour startTour T : List ℕ} {fuel : ℕ}
    (hS : ValidTour P.dimension startTour) (hC : CandWF P.dimension cand)
    (h : improveTour P cand bestTour fuel startTour = some T) :
    ValidTour P.dimension T ∧ tourLength P T ≤ tourLength P startTour := by
  have := improveTourAux_sound hC fuel (initRound P.dimension startTour) T
    (initRound_inv hS) h
  exact this

/-! ### Termination of `improveTour`

The measure combines the current tour length (strictly decreased by every
commit), a positionally weighted sum of the pending choice-set sizes
(strictly decreased by every pop), and the current position (strictly
decreased by every backtrack that leaves the weighted sum unchanged). -/

/-- Positionally weighted size sum of the choice stacks: position `j`
weighs `C ^ (e - j)`. -/
def wsum (C : ℕ) : List (List ℕ) → ℕ → ℕ
  | [], _ => 0
  | s :: r, e => s.length * C ^ e + wsum C r (e - 1)

/-- Strict bound on all choice-set sizes. -/
def lkC (P : TsplibProblem) (cand : ℕ → List ℕ) : ℕ :=
  max P.dimension (candMax P.dimension cand) + 3

/-- Bound on the walk position. -/
def lkK (P : TsplibProblem) : ℕ := P.dimension * P.dimension + 1

/-- Top weight exponent. -/
def lkE0 (P : TsplibProblem) : ℕ := lkK P + 2

/-- Strict bound on the inner measure, the weight of one unit of tour
length. -/
def lkW (P : TsplibProblem) (cand : ℕ → List ℕ) : ℕ :=
  (lkC P cand) ^ (lkE0 P + 1) * (lkK P + 4) + lkK P + 4

/-- The global termination measure of the search. -/
def lkG (P : TsplibProblem) (cand : ℕ → List ℕ) (st : LKState) : ℕ :=
  tourLength P st.currentTour * lkW P cand +
    (wsum (lkC P cand) st.vertexChoices (lkE0 P)) * (lkK P + 4) + st.pos

theorem lkInv_pos_le {P : TsplibProblem} {cand : ℕ → List ℕ} {st : LKState}
    (hI : LKInv P cand st) : st.pos ≤ lkK P := by
  rw [← hI.walkLen]
  by_cases hw : st.currentWalk = []
  · rw [hw]
    simp [lkK]
  · have hlen := walkEdges_length hw
    have hnd := hI.walkInv.2.2.1
    have hsub : (walkEdges st.currentWalk).toFinset ⊆
        (Finset.range P.dimension) ×ˢ (Finset.range P.dimension) := by
      intro e he
      rcases walkEdges_vertex (List.mem_toFinset.mp he) with ⟨h1, h2⟩
      rw [Finset.mem_product]
      exact ⟨Finset.mem_range.mpr (hI.walkBound _ h1),
        Finset.mem_range.mpr (hI.walkBound _ h2)⟩
    have hcard := Finset.card_le_card hsub
    rw [List.toFinset_card_of_nodup hnd] at hcard
    have hc2 : ((Finset.range P.dimension) ×ˢ
        (Finset.range P.dimension)).card = P.dimension * P.dimension := by
      simp
    rw [hc2] at hcard
    unfold lkK
    omega

theorem wsum_append (C : ℕ) (l1 l2 : List (List ℕ)) (e : ℕ)
    (h : l1.length ≤ e) :
    wsum C (l1 ++ l2) e = wsum C l1 e + wsum C l2 (e - l1.length) := by
  induction l1 generalizing e with
  | nil => simp [wsum]
  | cons s r ih =>
    simp only [List.cons_append, wsum, List.length_cons, List.append_eq]
    rw [ih (e - 1) (by simp at h; omega)]
    have : e - 1 - r.length = e - (r.length + 1) := by omega
    rw [this]
    ring

theorem wsum_take_le (C : ℕ) (l : List (List ℕ)) (n e : ℕ) :
    wsum C (l.take n) e ≤ wsum C l e := by
  induction l generalizing n e with
  | nil => simp [wsum]
  | cons s r ih =>
    cases n with
    | zero => simp [wsum]
    | succ n =>
      rw [List.take_succ_cons]
      simp only [wsum]
      exact Nat.add_le_add_left (ih n (e - 1)) _

theorem wsum_lt_pow {C : ℕ} (hC : 1 ≤ C) :
    ∀ (cs : List (List ℕ)) (e : ℕ), (∀ s ∈ cs, s.length + 1 ≤ C) →
      cs.length ≤ e + 1 → wsum C cs e < C ^ (e + 1) := by
  intro cs
  induction cs with
  | nil =>
    intro e _ _
    simp only [wsum]
    exact Nat.pos_pow_of_pos _ hC
  | cons s r ih =>
    intro e hsz hlen
    simp only [wsum]
    simp only [List.length_cons] at hlen
    rcases Nat.eq_zero_or_pos e with rfl | hpos
    · have hr : r = [] := by
        cases r with
        | nil => rfl
        | cons a b => simp at hlen
      subst hr
      have hs := hsz s (List.mem_cons_self _ _)
      simp only [wsum, pow_zero, Nat.mul_one, Nat.add_zero, zero_add, pow_one]
      omega
    · have hrlt : wsum C r (e - 1) < C ^ e := by
        have := ih (e - 1) (fun x hx => hsz x (List.mem_cons_of_mem _ hx))
          (by omega)
        rwa [show e - 1 + 1 = e by omega] at this
      have hs := hsz s (List.mem_cons_self _ _)
      calc s.length * C ^ e + wsum C r (e - 1)
          < s.length * C ^ e + C ^ e := Nat.add_lt_add_left hrlt _
        _ = (s.length + 1) * C ^ e := by ring
        _ ≤ C * C ^ e := Nat.mul_le_mul_right _ hs
        _ = C ^ (e + 1) := by ring

theorem set_append_length (l1 : List (List ℕ)) (a v : List ℕ) :
    (l1 ++ [a]).set l1.length v = l1 ++ [v] := by
  induction l1 with
  | nil => rfl
  | cons s r ih => simp [List.set, ih]

theorem wsum_singleton (C : ℕ) (s : List ℕ) (e : ℕ) :
    wsum C [s] e = s.length * C ^ e := by
  simp [wsum]

theorem wsum_pair (C : ℕ) (s t : List ℕ) (e : ℕ) :
    wsum C [s, t] e = s.length * C ^ e + t.length * C ^ (e - 1) := by
  simp [wsum]

theorem dropLast_append_getD {choices : List (List ℕ)} {pos : ℕ}
    (hlen : choices.length = pos + 1) :
    choices = choices.dropLast ++ [choices.getD pos []] := by
  have hne : choices ≠ [] := by
    intro h
    rw [h] at hlen
    cases hlen
  have h1 : choices.getD pos [] = choices.getLast hne := by
    rw [List.getLast_eq_getElem, List.getD_eq_getElem _ _ (by omega)]
    simp only [hlen, Nat.add_sub_cancel]
  rw [h1, List.dropLast_append_getLast]

theorem wsum_pop {C : ℕ} {choices : List (List ℕ)} {pos e : ℕ}
    (hC : 1 ≤ C) (hlen : choices.length = pos + 1) (hle : pos + 1 ≤ e)
    (hXne : choices.getD pos [] ≠ []) {ns : List ℕ}
    (hns : ns.length + 1 ≤ C) :
    wsum C ((choices.set pos (choices.getD pos []).dropLast) ++ [ns]) e + 1 ≤
      wsum C choices e := by
  have hfront : choices.dropLast.length = pos := by
    rw [List.length_dropLast, hlen]
    omega
  have hsetgen : ∀ v : List ℕ, choices.set pos v = choices.dropLast ++ [v] := by
    intro v
    conv_lhs => rw [dropLast_append_getD hlen]
    rw [← hfront, set_append_length]
  have hchoices := dropLast_append_getD hlen
  have hXi : 1 ≤ (choices.getD pos []).length :=
    List.length_pos.mpr hXne
  have hEpos : 1 ≤ e - pos := by omega
  have hApow : C ^ (e - pos) = C * C ^ (e - pos - 1) := by
    conv_lhs => rw [show e - pos = (e - pos - 1) + 1 by omega]
    rw [pow_succ]
    ring
  have hPpos : 1 ≤ C ^ (e - pos - 1) := Nat.one_le_pow _ _ hC
  have hw1 : wsum C choices e = wsum C choices.dropLast e +
      (choices.getD pos []).length * C ^ (e - pos) := by
    conv_lhs => rw [hchoices]
    rw [wsum_append _ _ _ _ (by omega), hfront, wsum_singleton]
  have hw2 : wsum C ((choices.set pos (choices.getD pos []).dropLast) ++ [ns]) e
      = wsum C choices.dropLast e +
        ((choices.getD pos []).length - 1) * C ^ (e - pos) +
        ns.length * C ^ (e - pos - 1) := by
    rw [hsetgen, List.append_assoc,
      show [(choices.getD pos []).dropLast] ++ [ns] =
        [(choices.getD pos []).dropLast, ns] from rfl,
      wsum_append _ _ _ _ (by omega), hfront, wsum_pair,
      List.length_dropLast]
    ring_nf
  have hsub : ((choices.getD pos []).length - 1) * C ^ (e - pos) +
      C ^ (e - pos) = (choices.getD pos []).length * C ^ (e - pos) := by
    have h2 : (choices.getD pos []).length - 1 + 1 =
        (choices.getD pos []).length := Nat.sub_add_cancel hXi
    calc ((choices.getD pos []).length - 1) * C ^ (e - pos) + C ^ (e - pos)
        = (((choices.getD pos []).length - 1) + 1) * C ^ (e - pos) := by ring
      _ = (choices.getD pos []).length * C ^ (e - pos) := by rw [h2]
  have hB : ns.length * C ^ (e - pos - 1) + C ^ (e - pos - 1) ≤
      C * C ^ (e - pos - 1) := by
    calc ns.length * C ^ (e - pos - 1) + C ^ (e - pos - 1)
        = (ns.length + 1) * C ^ (e - pos - 1) := by ring
      _ ≤ C * C ^ (e - pos - 1) := Nat.mul_le_mul_right _ hns
  rw [hw1, hw2]
  omega

theorem lkMu_lt {P : TsplibProblem} {cand : ℕ → List ℕ} {st : LKState}
    (hI : LKInv P cand st) :
    wsum (lkC P cand) st.vertexChoices (lkE0 P) * (lkK P + 4) + st.pos <
      lkW P cand := by
  have hC1 : 1 ≤ lkC P cand := by
    unfold lkC
    omega
  have hpos := lkInv_pos_le hI
  have hlen : st.vertexChoices.length ≤ lkE0 P + 1 := by
    rw [hI.choicesLen]
    unfold lkE0
    omega
  have hsz : ∀ s ∈ st.vertexChoices, s.length + 1 ≤ lkC P cand := by
    intro s hs
    rcases List.mem_iff_getElem.mp hs with ⟨j, hj, hjs⟩
    have hb := hI.choicesSize j
    rw [List.getD_eq_getElem _ _ hj, hjs] at hb
    unfold lkC
    omega
  have hws := wsum_lt_pow hC1 st.vertexChoices (lkE0 P) hsz hlen
  have h2 : (wsum (lkC P cand) st.vertexChoices (lkE0 P) + 1) * (lkK P + 4) ≤
      (lkC P cand) ^ (lkE0 P + 1) * (lkK P + 4) :=
    Nat.mul_le_mul_right _ hws
  rw [Nat.add_mul, one_mul] at h2
  unfold lkW
  omega

/-- Every `next` transition strictly decreases the global measure. -/
theorem lkStep_measure {P : TsplibProblem} {cand : ℕ → List ℕ}
    {bestTour : List ℕ} {st st2 : LKState}
    (hC : CandWF P.dimension cand) (hI : LKInv P cand st)
    (hstep : lkStep P cand bestTour st = StepResult.next st2) :
    lkG P cand st2 < lkG P cand st := by
  have hI2 := (lkStep_next_inv hC hI hstep).1
  have hmu2 := lkMu_lt hI2
  have hmu := lkMu_lt hI
  simp only [lkStep] at hstep
  by_cases h1 : (st.vertexChoices.getD st.pos []).isEmpty = true
  · rw [if_pos h1] at hstep
    by_cases h2 : 0 < st.highestGain
    · -- commit: the tour length strictly decreases
      rw [if_pos h2] at hstep
      injection hstep with hst2
      have hgc := hI.bestGood h2
      have hex := exchange_sound hI.tourValid hgc
      have hlt : tourLength P st2.currentTour < tourLength P st.currentTour := by
        rw [← hst2]
        show tourLength P (exchangeT st.currentTour st.bestAlternatingWalk) <
          tourLength P st.currentTour
        have heq := hex.2
        omega
      have hmul : (tourLength P st2.currentTour + 1) * lkW P cand ≤
          tourLength P st.currentTour * lkW P cand :=
        Nat.mul_le_mul_right _ hlt
      rw [Nat.add_mul, one_mul] at hmul
      unfold lkG
      omega
    · rw [if_neg h2] at hstep
      by_cases h3 : st.pos = 0
      · rw [if_pos h3] at hstep
        cases hstep
      · -- backtrack: the weighted sum does not grow and the position drops
        rw [if_neg h3] at hstep
        injection hstep with hst2
        subst hst2
        have hpos1 : 1 ≤ st.pos := Nat.one_le_iff_ne_zero.mpr h3
        have hws : wsum (lkC P cand)
            (st.vertexChoices.take (min (st.pos - 1) backtrackingDepth + 1))
            (lkE0 P) ≤ wsum (lkC P cand) st.vertexChoices (lkE0 P) :=
          wsum_take_le _ _ _ _
        have hwmul : wsum (lkC P cand)
            (st.vertexChoices.take (min (st.pos - 1) backtrackingDepth + 1))
            (lkE0 P) * (lkK P + 4) ≤
            wsum (lkC P cand) st.vertexChoices (lkE0 P) * (lkK P + 4) :=
          Nat.mul_le_mul_right _ hws
        have hplt : min (st.pos - 1) backtrackingDepth < st.pos := by
          have := min_le_left (st.pos - 1) backtrackingDepth
          omega
        unfold lkG
        dsimp only
        omega
  · -- pop: the weighted sum strictly decreases
    rw [if_neg h1] at hstep
    injection hstep with hst2
    subst hst2
    have hXne : st.vertexChoices.getD st.pos [] ≠ [] := by
      intro hh
      rw [hh] at h1
      simp at h1
    have hC1 : 1 ≤ lkC P cand := by
      unfold lkC
      omega
    have hposK := lkInv_pos_le hI
    have hle : st.pos + 1 ≤ lkE0 P := by
      unfold lkE0
      omega
    -- the size bound of the freshly built set
    have hnsle : (lkNextSet P cand st.currentTour bestTour
        (st.currentWalk ++ [(st.vertexChoices.getD st.pos []).getLastD 0])
        (lkScore P st.currentTour
          (st.currentWalk ++ [(st.vertexChoices.getD st.pos []).getLastD 0])
          st.bestAlternatingWalk st.highestGain st.pos).2
        st.pos ((st.vertexChoices.getD st.pos []).getLastD 0)).length + 1 ≤
        lkC P cand := by
      have hxmem : (st.vertexChoices.getD st.pos []).getLastD 0 ∈
          st.vertexChoices.getD st.pos [] := getLastD_mem hXne 0
      have hxN := hI.choicesBound st.pos _ hxmem
      have hns := @lkNextSet_ok P cand st.currentTour bestTour
        (st.currentWalk ++ [(st.vertexChoices.getD st.pos []).getLastD 0])
        ((lkScore P st.currentTour
          (st.currentWalk ++ [(st.vertexChoices.getD st.pos []).getLastD 0])
          st.bestAlternatingWalk st.highestGain st.pos).2)
        st.pos ((st.vertexChoices.getD st.pos []).getLastD 0)
        hI.tourValid hC hxN
        (getLastD_append_singleton _ _) (by simp [hI.walkLen])
        (by
          intro hp0
          have hwnil : st.currentWalk = [] :=
            List.length_eq_zero.mp (by rw [hI.walkLen, hp0])
          rw [hwnil]
          simp [walkEdges])
      have := hns.2
      unfold lkC
      omega
    have hpop := wsum_pop hC1 hI.choicesLen hle hXne hnsle
    have hmul := Nat.mul_le_mul_right (lkK P + 4) hpop
    rw [Nat.add_mul, one_mul] at hmul
    have hposlt : st.pos + 1 ≤ lkK P + 3 := by omega
    unfold lkG
    dsimp only
    omega

/-- With more fuel than the global measure of the start state, the inner
search reaches `finished`. -/
theorem improveTourAux_terminates {P : TsplibProblem} {cand : ℕ → List ℕ}
    {bestTour : List ℕ} (hC : CandWF P.dimension cand) :
    ∀ fuel (st : LKState), LKInv P cand st → lkG P cand st < fuel →
      (improveTourAux P cand bestTour fuel st).isSome = true := by
  intro fuel
  induction fuel with
  | zero =>
    intro st _ hlt
    omega
  | succ n ih =>
    intro st hI hlt
    rw [improveTourAux]
    cases hstep : lkStep P cand bestTour st with
    | finished T => simp
    | next st2 =>
      refine ih st2 (lkStep_next_inv hC hI hstep).1 ?_
      have := lkStep_measure hC hI hstep
      omega

/-! ### The claims -/

/-- A fixed instance used to exercise the claim theorems: three vertices at
unit distance from each other, with the exhaustive candidate lists. -/
def Pex : TsplibProblem := ⟨3, fun _ _ => 1⟩

def candEx : ℕ → List ℕ := CandidateEdges.allNeighbors 3

def tourEx : List ℕ := [0, 1, 2]

def entEx : List ℕ := List.replicate 20 0

/-- **C1.** For every start tour the result of `improveTour` is no longer
than the start, because the search commits an exchange only when
`highestGain` is positive, and a committed exchange (the only transition
that changes the current tour) shortens it by exactly `highestGain`. -/
theorem claim_C1_improve_and_commit_gain {P : TsplibProblem}
    {cand : ℕ → List ℕ} {bestTour startTour : List ℕ}
    (hS : ValidTour P.dimension startTour) (hC : CandWF P.dimension cand) :
    (∀ fuel T, improveTour P cand bestTour fuel startTour = some T →
      tourLength P T ≤ tourLength P startTour) ∧
    (∀ st st2 : LKState, LKInv P cand st →
      lkStep P cand bestTour st = StepResult.next st2 →
      st2.currentTour ≠ st.currentTour →
      0 < st.highestGain ∧
        (tourLength P st2.currentTour : ℤ) =
          (tourLength P st.currentTour : ℤ) - st.highestGain) := by
  constructor
  · intro fuel T h
    exact (improveTour_sound hS hC h).2
  · intro st st2 hI hstep hne
    simp only [lkStep] at hstep
    by_cases h1 : (st.vertexChoices.getD st.pos []).isEmpty = true
    · rw [if_pos h1] at hstep
      by_cases h2 : 0 < st.highestGain
      · rw [if_pos h2] at hstep
        injection hstep with hst2
        subst hst2
        refine ⟨h2, ?_⟩
        have hgc := hI.bestGood h2
        have hex := exchange_sound hI.tourValid hgc
        exact hex.2
      · rw [if_neg h2] at hstep
        by_cases h3 : st.pos = 0
        · rw [if_pos h3] at hstep
          cases hstep
        · rw [if_neg h3] at hstep
          injection hstep with hst2
          subst hst2
          exact absurd rfl hne
    · rw [if_neg h1] at hstep
      injection hstep with hst2
      subst hst2
      exact absurd rfl hne

theorem claim_C1_witness :
    ValidTour Pex.dimension tourEx ∧ CandWF Pex.dimension candEx ∧
    ((∀ fuel T, improveTour Pex candEx [] fuel tourEx = some T →
        tourLength Pex T ≤ tourLength Pex tourEx) ∧
      (∀ st st2 : LKState, LKInv Pex candEx st →
        lkStep Pex candEx [] st = StepResult.next st2 →
        st2.currentTour ≠ st.currentTour →
        0 < st.highestGain ∧
          (tourLength Pex st2.currentTour : ℤ) =
            (tourLength Pex st.currentTour : ℤ) - st.highestGain)) :=
  ⟨by decide, by decide,
    claim_C1_improve_and_commit_gain (by decide) (by decide)⟩

/-- **C2.** On every problem and valid start tour the search terminates:
some finite fuel (any amount above the global measure) makes `improveTour`
return a tour. -/
theorem claim_C2_improveTour_terminates {P : TsplibProblem}
    {cand : ℕ → List ℕ} {bestTour startTour : List ℕ}
    (hS : ValidTour P.dimension startTour) (hC : CandWF P.dimension cand) :
    ∃ fuel T, improveTour P cand bestTour fuel startTour = some T := by
  have hsome := @improveTourAux_terminates P cand bestTour hC
    (lkG P cand (initRound P.dimension startTour) + 1)
    (initRound P.dimension startTour) (initRound_inv hS) (by omega)
  rcases Option.isSome_iff_exists.mp hsome with ⟨T, hT⟩
  exact ⟨lkG P cand (initRound P.dimension startTour) + 1, T, hT⟩

theorem claim_C2_witness :
    ValidTour Pex.dimension tourEx ∧ CandWF Pex.dimension candEx ∧
    ∃ fuel T, improveTour Pex candEx [] fuel tourEx = some T :=
  ⟨by decide, by decide, claim_C2_improveTour_terminates (by decide) (by decide)⟩

/-- One-trial unfolding of the trial loop, with the result of the random
start, of the improvement and of the "is better" comparison supplied as
hypotheses. -/
theorem findBestTourLoop_step {P : TsplibProblem} {cand : ℕ → List ℕ}
    {fuel opt rem : ℕ} {err : ℚ} {best startTour T log e e2 : List ℕ}
    {bl : Option ℕ} {b : Bool}
    (hgen : generateRandomTour P cand best e = some (startTour, e2))
    (him : improveTour P cand best fuel startTour = some T)
    (hib : (match bl with
      | none => true
      | some len => decide (tourLength P T < len)) = b) :
    findBestTourLoop P cand fuel opt err (rem + 1) best bl log e =
      if (tourLength P (if b then T else best) : ℚ) <
          (1 + err) * (opt : ℚ) then
        some (if b then T else best,
          log ++ [tourLength P (if b then T else best)])
      else
        findBestTourLoop P cand fuel opt err rem (if b then T else best)
          (if b then some (tourLength P T) else bl)
          (log ++ [tourLength P (if b then T else best)]) e2 := by
  rw [findBestTourLoop, hgen]
  dsimp only
  rw [him]
  dsimp only
  rw [hib]

/-- **C3 (amended).** The break test of `findBestTour` is strict: with
`acceptableError = 0`, a first trial whose improved tour has length exactly
`optimumTourLength` does NOT stop the loop — the remaining trials still
run.  (The claim as stated, that such a trial terminates the loop, is
refuted by `claim_C3_counterexample`.) -/
theorem claim_C3_exact_optimum_does_not_stop {P : TsplibProblem}
    {cand : ℕ → List ℕ} {fuel opt rem : ℕ}
    {best startTour T log e e2 : List ℕ}
    (hgen : generateRandomTour P cand best e = some (startTour, e2))
    (him : improveTour P cand best fuel startTour = some T)
    (hopt : tourLength P T = opt) :
    findBestTourLoop P cand fuel opt 0 (rem + 1) best none log e =
      findBestTourLoop P cand fuel opt 0 rem T (some (tourLength P T))
        (log ++ [tourLength P T]) e2 := by
  rw [findBestTourLoop_step (b := true) hgen him rfl]
  simp only [eq_self_iff_true, if_true]
  have hnb : ¬ ((tourLength P T : ℚ) < (1 + (0 : ℚ)) * (opt : ℚ)) := by
    rw [hopt, show (1 + (0 : ℚ)) = 1 by norm_num, one_mul]
    exact lt_irrefl _
  rw [if_neg hnb]

theorem claim_C3_witness :
    findBestTourLoop Pex candEx 19 3 0 1 [] none [] entEx =
      findBestTourLoop Pex candEx 19 3 0 0 tourEx (some (tourLength Pex tourEx))
        ([] ++ [tourLength Pex tourEx]) (List.replicate 17 0) :=
  claim_C3_exact_optimum_does_not_stop (by rfl) (by rfl) (by rfl)

/-- **C3, counterexample to the claim as stated.**  On the unit-distance
three-vertex problem every tour has length `3`, the true optimum.  Running
`findBestTour` with `numberOfTrials = 2`, `optimumTourLength = 3` and
`acceptableError = 0`, the first trial already produces a tour of length
`3`, yet the returned trial log has two entries: a second trial ran. -/
theorem claim_C3_counterexample :
    (findBestTour Pex candEx 19 2 3 0 entEx).map (fun r => r.2) =
      some [3, 3] := by
  have h0 : findBestTour Pex candEx 19 2 3 0 entEx =
      findBestTourLoop Pex candEx 19 3 0 2 [] none [] entEx := by rfl
  have e1 : findBestTourLoop Pex candEx 19 3 0 2 [] none [] entEx =
      findBestTourLoop Pex candEx 19 3 0 1 [0, 1, 2] (some 3) [3]
        (List.replicate 17 0) := by
    rw [@findBestTourLoop_step Pex candEx 19 3 1 0 [] [0, 1, 2] [0, 1, 2] []
      entEx (List.replicate 17 0) none true (by rfl) (by rfl) (by rfl)]
    rw [if_neg (by norm_num [show tourLength Pex [0, 1, 2] = 3 from rfl])]
    rfl
  have e2 : findBestTourLoop Pex candEx 19 3 0 1 [0, 1, 2] (some 3) [3]
        (List.replicate 17 0) =
      findBestTourLoop Pex candEx 19 3 0 0 [0, 1, 2] (some 3) [3, 3]
        (List.replicate 14 0) := by
    rw [@findBestTourLoop_step Pex candEx 19 3 0 0 [0, 1, 2] [0, 1, 2]
      [0, 1, 2] [3] (List.replicate 17 0) (List.replicate 14 0) (some 3) false
      (by rfl) (by rfl) (by rfl)]
    rw [if_neg (by norm_num [show tourLength Pex [0, 1, 2] = 3 from rfl])]
    rfl
  rw [h0, e1, e2]
  rfl

/-- **C5 (amended).** For the neighbour-based strategies and `k ≥ N`,
`CandidateEdges::create` does not fail: `std::partial_sort_copy` simply
fills the first `N - 1` slots of each size-`k` row and leaves the rest
value-initialised, so every row still has length `k` and contains the
vertex `0` as padding.  (The claimed `InvalidArgument` error does not
exist; see `claim_C5_counterexample`.) -/
theorem claim_C5_create_pads_instead_of_failing {P : TsplibProblem}
    {alpha alphaOpt : ℕ → ℕ → ℕ} {t : CandidateType} {k v : ℕ}
    (ht : t ≠ CandidateType.ALL_NEIGHBORS)
    (hv : v < P.dimension) (hk : P.dimension ≤ k) :
    (CandidateEdges.create P alpha alphaOpt t k v).length = k ∧
      0 ∈ CandidateEdges.create P alpha alphaOpt t k v := by
  have hraw : ∀ cmp : ℕ → ℕ → ℕ → Bool,
      (CandidateEdges.rawNearestNeighbors P.dimension k cmp v).length = k ∧
        0 ∈ CandidateEdges.rawNearestNeighbors P.dimension k cmp v := by
    intro cmp
    refine ⟨rawNearestNeighbors_length cmp hv, ?_⟩
    unfold CandidateEdges.rawNearestNeighbors
    refine List.mem_append.mpr (Or.inr ?_)
    rw [filter_range_length hv]
    exact List.mem_replicate.mpr ⟨by omega, rfl⟩
  cases t with
  | ALL_NEIGHBORS => exact absurd rfl ht
  | NEAREST_NEIGHBORS =>
    simp only [CandidateEdges.create, CandidateEdges.nearestNeighbors]
    exact hraw _
  | ALPHA_NEAREST_NEIGHBORS =>
    simp only [CandidateEdges.create, CandidateEdges.alphaNearestNeighbors]
    exact hraw _
  | OPTIMIZED_ALPHA_NEAREST_NEIGHBORS =>
    simp only [CandidateEdges.create,
      CandidateEdges.optimizedAlphaNearestNeighbors]
    exact hraw _

theorem claim_C5_witness :
    CandidateType.NEAREST_NEIGHBORS ≠ CandidateType.ALL_NEIGHBORS ∧
    (0 : ℕ) < Pex.dimension ∧ Pex.dimension ≤ 3 ∧
    ((CandidateEdges.create Pex (fun _ _ => 0) (fun _ _ => 0)
        CandidateType.NEAREST_NEIGHBORS 3 0).length = 3 ∧
      0 ∈ CandidateEdges.create Pex (fun _ _ => 0) (fun _ _ => 0)
        CandidateType.NEAREST_NEIGHBORS 3 0) :=
  ⟨by decide, by decide, by decide,
    claim_C5_create_pads_instead_of_failing (by decide) (by decide) (by decide)⟩

/-- **C5, counterexample to the claim as stated.**  On a two-vertex
problem, `create` with `NEAREST_NEIGHBORS` and `k = 2 ≥ N = 2` returns a
candidate table instead of failing; vertex `0`'s row is `[1, 0]` — padded
with the value-initialised `0`, which is the owning vertex itself. -/
theorem claim_C5_counterexample :
    CandidateEdges.create ⟨2, fun a b => a + b⟩ (fun _ _ => 0) (fun _ _ => 0)
      CandidateType.NEAREST_NEIGHBORS 2 0 = [1, 0] := by
  unfold CandidateEdges.create CandidateEdges.nearestNeighbors
    CandidateEdges.rawNearestNeighbors
  dsimp only
  have hsrc : (List.range 2).filter (fun x => decide (x ≠ 0)) = [1] := by decide
  rw [hsrc, List.mergeSort_singleton]
  rfl

/-- **C6.** At an odd position, `x` enters the next choice set iff `x` is a
candidate of `xᵢ`, differs from the walk's first vertex, `{xᵢ, x}` is
neither a tour edge nor an edge already on the walk, and the remaining
potential `exchangeGain(currentWalk) − dist(xᵢ, x)` still beats
`highestGain`. -/
theorem claim_C6_odd_step_filter {P : TsplibProblem} {cand : ℕ → List ℕ}
    {T w : List ℕ} {hg : ℤ} {xi x : ℕ}
    (hT : ValidTour P.dimension T) (hxi : xi ∈ T) :
    x ∈ oddStepChoices P cand T w hg xi ↔
      x ∈ cand xi ∧ x ≠ w.headD 0 ∧
        nedge xi x ∉ edgeList T ∧
        nedge xi x ∉ walkEdges w ∧
        hg < exchangeGain P w - (P.dist xi x : ℤ) := by
  unfold oddStepChoices
  rw [List.mem_filter]
  simp only [Bool.and_eq_true, decide_eq_true_eq, Bool.not_eq_true']
  constructor
  · rintro ⟨hc, ⟨⟨⟨h0, hp⟩, hs⟩, hw⟩, hgain⟩
    refine ⟨hc, h0, ?_, ?_, hgain⟩
    · rw [edge_mem_iff_pred_or_succ hT.1 hxi x]
      rintro (h | h) <;> [exact hp h; exact hs h]
    · intro hmem
      rw [← containsEdgeB_iff_mem] at hmem
      rw [hmem] at hw
      cases hw
  · rintro ⟨hc, h0, hT2, hw2, hgain⟩
    rw [edge_mem_iff_pred_or_succ hT.1 hxi x] at hT2
    refine ⟨hc, ⟨⟨⟨h0, fun h => hT2 (Or.inl h)⟩, fun h => hT2 (Or.inr h)⟩, ?_⟩,
      hgain⟩
    rw [← Bool.not_eq_true, containsEdgeB_iff_mem]
    exact hw2

theorem claim_C6_witness :
    ValidTour Pex.dimension tourEx ∧ (1 : ℕ) ∈ tourEx ∧
    ((2 : ℕ) ∈ oddStepChoices Pex candEx tourEx [0, 1] 0 1 ↔
      (2 : ℕ) ∈ candEx 1 ∧ (2 : ℕ) ≠ List.headD [0, 1] 0 ∧
        nedge 1 2 ∉ edgeList tourEx ∧
        nedge 1 2 ∉ walkEdges [0, 1] ∧
        (0 : ℤ) < exchangeGain Pex [0, 1] - (Pex.dist 1 2 : ℤ)) :=
  ⟨by decide, by decide, claim_C6_odd_step_filter (by decide) (by decide)⟩

/-- **C7.** With `k < N`, no candidate row contains its owning vertex, and
each row's length is `k` for the neighbour-based strategies and `N − 1`
for `ALL_NEIGHBORS`. -/
theorem claim_C7_candidate_rows {P : TsplibProblem}
    {alpha alphaOpt : ℕ → ℕ → ℕ} {t : CandidateType} {k v : ℕ}
    (hv : v < P.dimension) (hk : k < P.dimension) :
    v ∉ CandidateEdges.create P alpha alphaOpt t k v ∧
      (CandidateEdges.create P alpha alphaOpt t k v).length =
        (if t = CandidateType.ALL_NEIGHBORS then P.dimension - 1 else k) := by
  cases t with
  | ALL_NEIGHBORS =>
    rw [if_pos rfl]
    exact ⟨allNeighbors_not_self _ _, allNeighbors_length hv⟩
  | NEAREST_NEIGHBORS =>
    rw [if_neg (by simp)]
    simp only [CandidateEdges.create, CandidateEdges.nearestNeighbors]
    exact ⟨rawNearestNeighbors_not_self _ hv hk,
      rawNearestNeighbors_length _ hv⟩
  | ALPHA_NEAREST_NEIGHBORS =>
    rw [if_neg (by simp)]
    simp only [CandidateEdges.create, CandidateEdges.alphaNearestNeighbors]
    exact ⟨rawNearestNeighbors_not_self _ hv hk,
      rawNearestNeighbors_length _ hv⟩
  | OPTIMIZED_ALPHA_NEAREST_NEIGHBORS =>
    rw [if_neg (by simp)]
    simp only [CandidateEdges.create,
      CandidateEdges.optimizedAlphaNearestNeighbors]
    exact ⟨rawNearestNeighbors_not_self _ hv hk,
      rawNearestNeighbors_length _ hv⟩

theorem claim_C7_witness :
    (0 : ℕ) < Pex.dimension ∧ (2 : ℕ) < Pex.dimension ∧
    ((0 : ℕ) ∉ CandidateEdges.create Pex (fun _ _ => 0) (fun _ _ => 0)
        CandidateType.NEAREST_NEIGHBORS 2 0 ∧
      (CandidateEdges.create Pex (fun _ _ => 0) (fun _ _ => 0)
        CandidateType.NEAREST_NEIGHBORS 2 0).length =
        (if CandidateType.NEAREST_NEIGHBORS = CandidateType.ALL_NEIGHBORS
          then Pex.dimension - 1 else 2)) :=
  ⟨by decide, by decide, claim_C7_candidate_rows (by decide) (by decide)⟩

/-- **C8.** Closing an already-closed walk appends the first vertex once
more: for a nonempty walk `x₀ :: rest`,
`close (close w) = (close w).push x₀`. -/
theorem claim_C8_close_close (x0 : ℕ) (rest : List ℕ) :
    closeWalk (closeWalk (x0 :: rest)) = closeWalk (x0 :: rest) ++ [x0] := by
  rw [closeWalk_cons, List.cons_append, closeWalk_cons]

/-- The index loop of `AlternatingWalk::containsEdge`, as executed with
unsigned arithmetic: `n` iterations remain, `i` is the loop counter, each
iteration reads indices `i` and `i + 1`, and a read past the end is
undefined behaviour (`none`). -/
def ceuAux (w : List ℕ) (u v : ℕ) : ℕ → ℕ → Option Bool
  | 0, _ => some false
  | n + 1, i =>
    match w.get? i, w.get? (i + 1) with
    | some a, some b =>
      if (a = u && b = v) || (a = v && b = u) then some true
      else ceuAux w u v n (i + 1)
    | _, _ => none

/-- `AlternatingWalk::containsEdge` with the loop bound `size() - 1`
computed in the unsigned `W`-bit type `dimension_t`: on an empty walk the
subtraction wraps around to `2 ^ W - 1`. -/
def containsEdgeU (W : ℕ) (w : List ℕ) (u v : ℕ) : Option Bool :=
  ceuAux w u v ((w.length + (2 ^ W - 1)) % 2 ^ W) 0

theorem ceuAux_sound (w : List ℕ) (u v : ℕ) :
    ∀ n i, n + i + 1 = w.length →
      ceuAux w u v n i = some (containsEdgeB (w.drop i) u v) := by
  intro n
  induction n with
  | zero =>
    intro i hlen
    obtain ⟨a, ha⟩ : ∃ a, w.drop i = [a] := by
      apply List.length_eq_one.mp
      rw [List.length_drop]
      omega
    rw [ha]
    rfl
  | succ n ih =>
    intro i hlen
    have hi : i < w.length := by omega
    have hi1 : i + 1 < w.length := by omega
    have hg1 : w.get? i = some w[i] := by
      rw [List.get?_eq_getElem?, List.getElem?_eq_getElem hi]
    have hg2 : w.get? (i + 1) = some w[i + 1] := by
      rw [List.get?_eq_getElem?, List.getElem?_eq_getElem hi1]
    have hdrop : w.drop i = w[i] :: w.drop (i + 1) :=
      List.drop_eq_getElem_cons hi
    have hdrop1 : w.drop (i + 1) = w[i + 1] :: w.drop (i + 2) :=
      List.drop_eq_getElem_cons hi1
    rw [ceuAux, hg1, hg2, hdrop, hdrop1]
    dsimp only
    simp only [containsEdgeB]
    cases hc : ((w[i] = u && w[i + 1] = v) || (w[i] = v && w[i + 1] = u)) with
    | true =>
      simp
    | false =>
      rw [if_neg Bool.false_ne_true, Bool.false_or, ← hdrop1]
      exact ih (i + 1) (by omega)

/-- **C9.** On a nonempty walk (whose length fits the unsigned type),
`containsEdge` reads only in-bounds indices and agrees with the structural
pair scan, which returns `true` iff some consecutive pair of the walk is
`{u, v}`; on an empty walk the unsigned bound `size() - 1` wraps around
and the very first read is out of bounds. -/
theorem claim_C9_containsEdge_safe {W : ℕ} (hW : 1 ≤ W) :
    (∀ (w : List ℕ) (u v : ℕ), w ≠ [] → w.length < 2 ^ W →
      containsEdgeU W w u v = some (containsEdgeB w u v) ∧
        (containsEdgeB w u v = true ↔ nedge u v ∈ walkEdges w)) ∧
    (∀ u v : ℕ, containsEdgeU W ([] : List ℕ) u v = none) := by
  have h2 : 2 ≤ 2 ^ W := by
    calc 2 = 2 ^ 1 := by norm_num
    _ ≤ 2 ^ W := Nat.pow_le_pow_right (by norm_num) hW
  constructor
  · intro w u v hne hlen
    have hlen1 : 1 ≤ w.length := List.length_pos.mpr hne
    have hbound : (w.length + (2 ^ W - 1)) % 2 ^ W = w.length - 1 := by
      rw [show w.length + (2 ^ W - 1) = (w.length - 1) + 2 ^ W by omega,
        Nat.add_mod_right]
      exact Nat.mod_eq_of_lt (by omega)
    refine ⟨?_, containsEdgeB_iff_mem⟩
    unfold containsEdgeU
    rw [hbound]
    have h := ceuAux_sound w u v (w.length - 1) 0 (by omega)
    rw [List.drop_zero] at h
    exact h
  · intro u v
    unfold containsEdgeU
    have hb : (([] : List ℕ).length + (2 ^ W - 1)) % 2 ^ W = 2 ^ W - 1 := by
      simp only [List.length_nil, Nat.zero_add]
      exact Nat.mod_eq_of_lt (by omega)
    rw [hb, show 2 ^ W - 1 = (2 ^ W - 2) + 1 by omega]
    rfl

theorem claim_C9_witness :
    1 ≤ 64 ∧
    ((∀ (w : List ℕ) (u v : ℕ), w ≠ [] → w.length < 2 ^ 64 →
      containsEdgeU 64 w u v = some (containsEdgeB w u v) ∧
        (containsEdgeB w u v = true ↔ nedge u v ∈ walkEdges w)) ∧
    (∀ u v : ℕ, containsEdgeU 64 ([] : List ℕ) u v = none)) :=
  ⟨by decide, claim_C9_containsEdge_safe (by decide)⟩

/-- Each pass of `generateRandomTour`'s selection loop removes the chosen
vertex from `remainingVertices`, so with fuel at least the number of
remaining vertices the loop always reaches the empty state; no
`chooseRandomElement` call ever receives an empty vector. -/
theorem ne_nil_of_not_isEmpty {l : List ℕ} (h : ¬ l.isEmpty = true) :
    l ≠ [] :=
  fun hnil => h (by rw [hnil]; rfl)

theorem genLoop_isSome {cand : ℕ → List ℕ} {bestTour : List ℕ} :
    ∀ (fuel cur : ℕ) (remaining tourOrder entropy : List ℕ),
      remaining.length ≤ fuel →
      (genLoop cand bestTour fuel cur remaining tourOrder entropy).isSome
        = true := by
  intro fuel
  induction fuel with
  | zero =>
    intro cur remaining tourOrder entropy hlen
    have hrem : remaining = [] := List.eq_nil_of_length_eq_zero (by omega)
    subst hrem
    rw [genLoop]
    rfl
  | succ n ih =>
    intro cur remaining tourOrder entropy hlen
    rw [genLoop]
    by_cases he : remaining.isEmpty = true
    · rw [if_pos he]
      rfl
    · rw [if_neg he]
      have hne : remaining ≠ [] := fun h => he (by rw [h]; rfl)
      dsimp only
      split
      · -- the drawn list was empty: impossible, every branch of the
        -- cascade is nonempty
        rename_i hch
        exfalso
        revert hch
        split_ifs with hf1 hf2
        · intro hch
          have hs := chooseRandomElement_isSome (entropy.headD 0) hne
          rw [hch] at hs
          cases hs
        · intro hch
          have hs := chooseRandomElement_isSome (entropy.headD 0)
            (ne_nil_of_not_isEmpty hf2)
          rw [hch] at hs
          cases hs
        · intro hch
          have hs := chooseRandomElement_isSome (entropy.headD 0)
            (ne_nil_of_not_isEmpty hf1)
          rw [hch] at hs
          cases hs
      · rename_i nxt hch
        apply ih
        have hmemL := chooseRandomElement_mem hch
        have hmem : nxt ∈ remaining := by
          revert hmemL
          split_ifs with hf1 hf2 <;> intro hmemL
          · exact hmemL
          · have h2 := (List.mem_filter.mp hmemL).2
            simpa using h2
          · have h1 := (List.mem_filter.mp hmemL).1
            have h2 := (List.mem_filter.mp h1).2
            simpa using h2
        have hq : (remaining.filter (fun x => decide (x ≠ nxt))).length <
            remaining.length := by
          rcases Nat.lt_or_ge (remaining.filter
              (fun x => decide (x ≠ nxt))).length remaining.length with h | h
          · exact h
          · exfalso
            have hsub : List.Sublist
                (remaining.filter (fun x => decide (x ≠ nxt))) remaining :=
              List.filter_sublist _
            have hlenle := hsub.length_le
            have heqf : remaining.filter (fun x => decide (x ≠ nxt))
                = remaining := hsub.eq_of_length (by omega)
            have hmf : nxt ∈ remaining.filter (fun x => decide (x ≠ nxt)) := by
              rw [heqf]
              exact hmem
            have := (List.mem_filter.mp hmf).2
            simp at this
        omega

/-- **C10.**  On a problem with at least one vertex, `generateRandomTour`
always succeeds: `remainingVertices` is still nonempty whenever an element
is drawn from it, and the biased candidate lists are only drawn from after
their nonemptiness test, so no `chooseRandomElement` call sees an empty
vector (whose `size() - 1` would underflow). -/
theorem claim_C10_random_tour_succeeds {P : TsplibProblem}
    {cand : ℕ → List ℕ} {bestTour entropy : List ℕ}
    (hN : 1 ≤ P.dimension) :
    (generateRandomTour P cand bestTour entropy).isSome = true := by
  unfold generateRandomTour
  have hne : List.range P.dimension ≠ [] := by
    intro h
    have := List.length_range P.dimension
    rw [h] at this
    simp at this
    omega
  dsimp only
  split
  · rename_i hch
    have := chooseRandomElement_isSome (entropy.headD 0) hne
    rw [hch] at this
    cases this
  · rename_i cv hch
    apply genLoop_isSome
    have hle : ((List.range P.dimension).eraseIdx cv).length ≤
        (List.range P.dimension).length := List.length_eraseIdx_le _ _
    rw [List.length_range] at hle
    exact hle

theorem claim_C10_witness :
    1 ≤ Pex.dimension ∧
      (generateRandomTour Pex candEx [] entEx).isSome = true :=
  ⟨by decide, claim_C10_random_tour_succeeds (by decide)⟩
